import Mathlib

/-!
# Shallow embedding of the `ProjectAkhir_Sister` distributed file store

This file embeds the naming-service registry (`src/naming_service/main.go`)
and the gateway upload path (`src/ui_gateway/main.go`) and proves the spec's
claims about them.

Modelling conventions:
* Timestamps are naturals, in seconds-since-the-Go-zero-time style: the zero
  `time.Time` is `0` and `t.Before u` is `t < u`.  The liveness thresholds
  `10s` / `20s` of `healthOf` keep their numeric values.
* Byte counts (`capacityBytes`, `usedBytes`, `size`) are integers, as in Go
  (`int64`); no arithmetic here can overflow 64 bits in reachable states, so
  unbounded integers are a faithful model.
* The `float64` load factor `usedBytes / capacityBytes` is modelled exactly as
  a rational; the defensive `capacityBytes <= 0` branch which returns
  `math.MaxFloat64` is modelled as `⊤` in `WithTop ℚ`.
* Go maps (`files`, `nodes`) are modelled as association lists keyed by the
  `fileId` / `nodeId` field; map iteration corresponds to list order (Go's
  iteration order is unspecified, so any fixed order is one admissible run).
* `sort.Slice` with a strict comparator `less` is modelled as
  `List.insertionSort` with the reflexive relation `notLtAfter less`
  (`a` before `b` allowed iff `less b a = false`); both produce a permutation
  of the input that is pairwise `notLtAfter less`, which is the entire
  postcondition `sort.Slice` guarantees (it is not a stable sort).
* The nil-pointer dereference that Go performs when `handleLookup` reads
  `sv.store.nodes[rep.NodeID]` for an absent key and immediately calls
  `healthOf` on the nil pointer is modelled as the distinguished error
  `RegistryError.nilDeref`.
-/

namespace DFS

/-- Replica status (`ReplicaStatus` in `naming_service/main.go`). -/
inductive ReplicaStatus where
  | ready
  | missing
  | stale
deriving DecidableEq

/-- File lifecycle state (`FileState`); `partialState` renders Go's `PARTIAL`. -/
inductive FileState where
  | allocated
  | partialState
  | available
  | degraded
  | deleted
deriving DecidableEq

/-- Derived node liveness (`NodeStatus`). -/
inductive NodeStatus where
  | healthy
  | suspect
  | down
deriving DecidableEq

/-- `ReplicaInfo`: an entry of a file's replica list. -/
structure ReplicaInfo where
  nodeId : String
  url : String
  status : ReplicaStatus
  lastVerifiedAt : Nat
deriving DecidableEq

/-- `FileMetadata`: one file record of the registry. -/
structure FileMetadata where
  fileId : String
  filename : String
  size : Int
  checksum : String
  contentType : String
  version : Nat
  replicas : List ReplicaInfo
  state : FileState
  createdAt : Nat
  updatedAt : Nat
deriving DecidableEq

/-- `NodeInfo`: one storage-node record of the registry. -/
structure NodeInfo where
  nodeId : String
  url : String
  capacityBytes : Int
  usedBytes : Int
  status : NodeStatus
  lastSeenAt : Nat
  zone : String
  tags : List String
  lastChosen : Nat
deriving DecidableEq

/-- `healthOf`: derived liveness from the age of the last heartbeat
(`time.Since` clamps to `0` for a `lastSeenAt` in the future, matching the
truncated subtraction on naturals). -/
def healthOf (now : Nat) (n : NodeInfo) : NodeStatus :=
  if now - n.lastSeenAt > 20 then .down
  else if now - n.lastSeenAt > 10 then .suspect
  else .healthy

/-- `freeBytes(n) = capacityBytes - usedBytes`. -/
def freeBytes (n : NodeInfo) : Int := n.capacityBytes - n.usedBytes

/-- `loadFactor`: `usedBytes / capacityBytes` as an exact rational, with the
defensive `capacityBytes <= 0 → math.MaxFloat64` branch modelled as `⊤`. -/
def loadFactor (n : NodeInfo) : WithTop ℚ :=
  if n.capacityBytes ≤ 0 then ⊤
  else ((n.usedBytes : ℚ) / (n.capacityBytes : ℚ) : ℚ)

/-- Executable strict comparison of two load factors.  This is the exact
(cross-multiplication) form of the float comparison `loadFactor(a) <
loadFactor(b)`; `lfLt_iff` below proves it equal to the `<` of
`loadFactor`. -/
def lfLt (a b : NodeInfo) : Bool :=
  if a.capacityBytes ≤ 0 then false
  else if b.capacityBytes ≤ 0 then true
  else decide (a.usedBytes * b.capacityBytes < b.usedBytes * a.capacityBytes)

/-- Executable equality of two load factors (`lfEq_iff` relates it to
`loadFactor`). -/
def lfEq (a b : NodeInfo) : Bool :=
  if a.capacityBytes ≤ 0 then decide (b.capacityBytes ≤ 0)
  else if b.capacityBytes ≤ 0 then false
  else decide (a.usedBytes * b.capacityBytes = b.usedBytes * a.capacityBytes)

/-- The `less` comparator of `pickReplicas`' `sort.Slice`: by load factor
ascending, ties broken by `lastChosen` ascending (`li == lj → Before`,
otherwise `li < lj`). -/
def lessNode (a b : NodeInfo) : Bool :=
  if lfEq a b then decide (a.lastChosen < b.lastChosen) else lfLt a b

/-- The `less` comparator of `checkAndHealReplicas`' `sort.Slice`: by load
factor only (no tie-break). -/
def lessLoad (a b : NodeInfo) : Bool := lfLt a b

/-- The reflexive total relation induced by a strict `sort.Slice` comparator:
`a` may stay before `b` whenever `b` is not strictly less than `a`.  A
comparison sort's postcondition is exactly: the output is a permutation of
the input that is `Pairwise` for this relation. -/
def notLtAfter (less : NodeInfo → NodeInfo → Bool) (a b : NodeInfo) : Prop :=
  less b a = false

instance (less : NodeInfo → NodeInfo → Bool) : DecidableRel (notLtAfter less) :=
  fun a b => instDecidableEqBool (less b a) false

/-- `strings.HasPrefix s p`. -/
def strStarts (s p : String) : Bool := p.data.isPrefixOf s.data

/-- Candidate test shared by `pickReplicas` and the healing loop:
derived-HEALTHY and enough free space. -/
def isCandidate (now : Nat) (size : Int) (n : NodeInfo) : Bool :=
  decide (healthOf now n = .healthy) && decide (size ≤ freeBytes n)

/-- The registry's in-memory store: the two Go maps as association lists. -/
structure Store where
  files : List FileMetadata
  nodes : List NodeInfo
deriving DecidableEq

/-- Map read `sv.store.files[fileId]`. -/
def findFile (s : Store) (fid : String) : Option FileMetadata :=
  s.files.find? (fun f => f.fileId == fid)

/-- Map read `sv.store.nodes[nodeId]`. -/
def findNode (s : Store) (nid : String) : Option NodeInfo :=
  s.nodes.find? (fun n => n.nodeId == nid)

/-- Map write `files[m.fileId] = m` (replace an existing key or add one). -/
def upsertFile (files : List FileMetadata) (m : FileMetadata) : List FileMetadata :=
  if files.any (fun f => f.fileId == m.fileId) then
    files.map (fun f => if f.fileId == m.fileId then m else f)
  else files ++ [m]

/-- Map write `nodes[n.nodeId] = n`. -/
def upsertNode (nodes : List NodeInfo) (n : NodeInfo) : List NodeInfo :=
  if nodes.any (fun m => m.nodeId == n.nodeId) then
    nodes.map (fun m => if m.nodeId == n.nodeId then n else m)
  else nodes ++ [n]

/-- Error classes surfaced by the registry handlers (HTTP 400, 404, 409) plus
the nil-pointer dereference `handleLookup` can hit. -/
inductive RegistryError where
  | badRequest
  | notFound
  | conflict
  | nilDeref
deriving DecidableEq

/-- Decidable equality for handler results, so concrete runs can be checked
by `decide`. -/
instance {ε α : Type} [DecidableEq ε] [DecidableEq α] :
    DecidableEq (Except ε α) := fun x y =>
  match x, y with
  | .error a, .error b =>
    if h : a = b then isTrue (by rw [h])
    else isFalse (by intro hc; injection hc with h2; exact h h2)
  | .error _, .ok _ => isFalse (by intro hc; exact Except.noConfusion hc)
  | .ok _, .error _ => isFalse (by intro hc; exact Except.noConfusion hc)
  | .ok a, .ok b =>
    if h : a = b then isTrue (by rw [h])
    else isFalse (by intro hc; injection hc with h2; exact h h2)

/-- `handleRegisterNode`: validate, then upsert a fresh record with
`usedBytes = 0`, `lastSeenAt = now`, and the zero `lastChosen`. -/
def registerNode (now : Nat) (nid url : String) (capacityBytes : Int)
    (zone : String) (tags : List String) (s : Store) : Except RegistryError Store :=
  if nid = "" ∨ url = "" ∨ capacityBytes ≤ 0 then .error .badRequest
  else
    let fresh : NodeInfo :=
      { nodeId := nid, url := url, capacityBytes := capacityBytes,
        usedBytes := 0, status := .healthy, lastSeenAt := now,
        zone := zone, tags := tags, lastChosen := 0 }
    .ok { s with nodes := upsertNode s.nodes fresh }

/-- `handleHeartbeat`: unknown node → 404; otherwise overwrite `usedBytes`
(unvalidated, exactly as the Go code), refresh `lastSeenAt`, recompute the
stored status, and return it. -/
def heartbeat (now : Nat) (nid : String) (usedBytes : Int) (s : Store) :
    Except RegistryError (Store × NodeStatus) :=
  match findNode s nid with
  | none => .error .notFound
  | some n =>
    let n1 : NodeInfo := { n with usedBytes := usedBytes, lastSeenAt := now }
    let n2 : NodeInfo := { n1 with status := healthOf now n1 }
    .ok ({ s with nodes := s.nodes.map (fun m => if m.nodeId == nid then n2 else m) },
         n2.status)

/-- `pickReplicas`: filter the candidates, fail if fewer than `R`, otherwise
sort by `(loadFactor, lastChosen)` and take the first `R`. -/
def pickReplicas (R now : Nat) (size : Int) (nodes : List NodeInfo) :
    Option (List NodeInfo) :=
  let cands := nodes.filter (isCandidate now size)
  if cands.length < R then none
  else some ((List.insertionSort (notLtAfter lessNode) cands).take R)

/-- The unchosen remainder of the sorted candidate list: a specification
accessor used to state that `pickReplicas` returns minimal candidates. -/
def pickRest (R now : Nat) (size : Int) (nodes : List NodeInfo) : List NodeInfo :=
  (List.insertionSort (notLtAfter lessNode) (nodes.filter (isCandidate now size))).drop R

/-- `handleAllocate`: validate the payload, run the placement engine, create
the file record (all replicas READY) and stamp `lastChosen` on the chosen
nodes.  The nondeterministically generated `uuidLike` file id is a
parameter. -/
def allocate (R now : Nat) (fid filename : String) (size : Int)
    (checksum contentType : String) (s : Store) :
    Except RegistryError (Store × List ReplicaInfo) :=
  if filename = "" ∨ size ≤ 0 ∨ strStarts checksum "sha256:" = false then
    .error .badRequest
  else
    match pickReplicas R now size s.nodes with
    | none => .error .conflict
    | some chosen =>
      let reps := chosen.map (fun n => ReplicaInfo.mk n.nodeId n.url .ready now)
      let meta : FileMetadata :=
        { fileId := fid, filename := filename, size := size, checksum := checksum,
          contentType := contentType, version := 1, replicas := reps,
          state := .allocated, createdAt := now, updatedAt := now }
      let chosenIds := chosen.map (fun n => n.nodeId)
      .ok ({ files := upsertFile s.files meta,
             nodes := s.nodes.map (fun n =>
               if chosenIds.contains n.nodeId then { n with lastChosen := now } else n) },
           reps)

/-- The replica update loop of `handleCommit`: every replica whose node id is
in the uploaded set becomes READY with `lastVerifiedAt = now`. -/
def commitReplicas (now : Nat) (uploaded : List String) (reps : List ReplicaInfo) :
    List ReplicaInfo :=
  reps.map (fun r =>
    if uploaded.contains r.nodeId then { r with status := .ready, lastVerifiedAt := now }
    else r)

/-- `count` of `handleCommit`: replicas whose node id is in the uploaded set. -/
def uploadCount (uploaded : List String) (reps : List ReplicaInfo) : Nat :=
  (reps.filter (fun r => uploaded.contains r.nodeId)).length

/-- The per-file effect of `handleCommit` on a found record. -/
def commitFile (R now : Nat) (uploaded : List String) (m : FileMetadata) :
    FileMetadata :=
  let count := uploadCount uploaded m.replicas
  { m with
    replicas := commitReplicas now uploaded m.replicas,
    state := if count = 0 then .allocated
             else if count < R then .partialState
             else .available,
    updatedAt := now }

/-- `handleCommit`: unknown file id → 404; otherwise apply `commitFile` and
return the resulting state. -/
def commitOp (R now : Nat) (fid : String) (uploaded : List String) (s : Store) :
    Except RegistryError (Store × FileState) :=
  match findFile s fid with
  | none => .error .notFound
  | some m =>
    let m1 := commitFile R now uploaded m
    .ok ({ s with files := s.files.map (fun f => if f.fileId == fid then m1 else f) },
         m1.state)

/-- Count of non-READY replicas (the `missing` counter of
`handleReportMissing`). -/
def nonReadyCount (reps : List ReplicaInfo) : Nat :=
  (reps.filter (fun r => decide (r.status ≠ .ready))).length

/-- The per-file effect of `handleReportMissing` on a found record. -/
def reportMissingFile (now : Nat) (nid : String) (m : FileMetadata) : FileMetadata :=
  let reps := m.replicas.map (fun r =>
    if r.nodeId == nid then { r with status := ReplicaStatus.missing } else r)
  { m with
    replicas := reps,
    state := if nonReadyCount reps > 0 ∧ m.state = .available then .degraded else m.state,
    updatedAt := now }

/-- `handleReportMissing`: unknown file id → 404; otherwise apply
`reportMissingFile` and return `accepted` with the resulting state. -/
def reportMissingOp (now : Nat) (fid nid : String) (s : Store) :
    Except RegistryError (Store × FileState) :=
  match findFile s fid with
  | none => .error .notFound
  | some m =>
    let m1 := reportMissingFile now nid m
    .ok ({ s with files := s.files.map (fun f => if f.fileId == fid then m1 else f) },
         m1.state)

/-- The classification loop of `handleLookup`.  Go reads
`sv.store.nodes[rep.NodeID]` with no presence check and passes the result to
`healthOf`; for an absent key that is a nil-pointer dereference, modelled as
`none`. -/
def lookupClassify (now : Nat) (nodes : List NodeInfo) :
    List ReplicaInfo → Option (List (String × String) × List (String × String))
  | [] => some ([], [])
  | r :: rest =>
    match nodes.find? (fun n => n.nodeId == r.nodeId) with
    | none => none
    | some n =>
      match lookupClassify now nodes rest with
      | none => none
      | some (h, o) =>
        if healthOf now n = .healthy then some ((r.nodeId, r.url) :: h, o)
        else some (h, (r.nodeId, r.url) :: o)

/-- `handleLookup`: unknown file id → 404; otherwise the healthy-hosted
replicas followed by the others, or `nilDeref` if a replica references an
absent node. -/
def lookupOp (now : Nat) (fid : String) (s : Store) :
    Except RegistryError (List (String × String)) :=
  match findFile s fid with
  | none => .error .notFound
  | some m =>
    match lookupClassify now s.nodes m.replicas with
    | none => .error .nilDeref
    | some (h, o) => .ok (h ++ o)

/-- One replica of the healthy count of `checkAndHealReplicas`: hosted on a
known, derived-HEALTHY node and itself READY.  An absent node counts as not
healthy (the Go code uses the two-valued map read here). -/
def replicaHealthy (now : Nat) (nodes : List NodeInfo) (r : ReplicaInfo) : Bool :=
  match nodes.find? (fun n => n.nodeId == r.nodeId) with
  | some n => decide (healthOf now n = .healthy) && decide (r.status = .ready)
  | none => false

/-- `healthyCount` of one file in `checkAndHealReplicas`. -/
def healthyCount (now : Nat) (nodes : List NodeInfo) (m : FileMetadata) : Nat :=
  (m.replicas.filter (replicaHealthy now nodes)).length

/-- Healing candidates for one file: not already hosting it, HEALTHY, with
room for the file. -/
def healCandidates (now : Nat) (nodes : List NodeInfo) (m : FileMetadata) :
    List NodeInfo :=
  let existing := m.replicas.map (fun r => r.nodeId)
  nodes.filter (fun n => !(existing.contains n.nodeId) && isCandidate now m.size n)

/-- The per-file body of `checkAndHealReplicas`. -/
def healFile (R now : Nat) (nodes : List NodeInfo) (m : FileMetadata) :
    FileMetadata :=
  if m.state = .deleted ∨ m.state = .allocated then m
  else
    let healthy := healthyCount now nodes m
    if healthy < R then
      let cands := healCandidates now nodes m
      let needed := R - healthy
      if needed ≤ cands.length then
        let newReps := ((List.insertionSort (notLtAfter lessLoad) cands).take needed).map
          (fun n => ReplicaInfo.mk n.nodeId n.url .missing now)
        { m with
          replicas := m.replicas ++ newReps,
          state := if m.state = .available then .degraded else m.state,
          updatedAt := now }
      else m
    else m

/-- One pass of `checkAndHealReplicas` over the whole file map (the node map
is read-only during the pass). -/
def healOp (R now : Nat) (s : Store) : Store :=
  { s with files := s.files.map (healFile R now s.nodes) }

/-- `handleDeleteFile`: unknown file id → 404; otherwise hard-remove the
entry. -/
def deleteFileOp (fid : String) (s : Store) : Except RegistryError Store :=
  match findFile s fid with
  | none => .error .notFound
  | some _ => .ok { s with files := s.files.filter (fun f => !(f.fileId == fid)) }

/-- One registry mutation, with the wall-clock reading it observes. -/
inductive Op where
  | registerNode (now : Nat) (nid url : String) (capacityBytes : Int)
      (zone : String) (tags : List String)
  | heartbeat (now : Nat) (nid : String) (usedBytes : Int)
  | allocate (now : Nat) (fid filename : String) (size : Int)
      (checksum contentType : String)
  | commit (now : Nat) (fid : String) (uploaded : List String)
  | reportMissing (now : Nat) (fid nid : String)
  | heal (now : Nat)
  | deleteFile (fid : String)

/-- Apply one mutation; a handler that fails leaves the store unchanged,
exactly as the HTTP handlers return early before mutating. -/
def applyOp (R : Nat) (s : Store) : Op → Store
  | .registerNode now nid url cap zone tags =>
    match registerNode now nid url cap zone tags s with
    | .ok s1 => s1
    | .error _ => s
  | .heartbeat now nid u =>
    match heartbeat now nid u s with
    | .ok (s1, _) => s1
    | .error _ => s
  | .allocate now fid fn sz ck ct =>
    match allocate R now fid fn sz ck ct s with
    | .ok (s1, _) => s1
    | .error _ => s
  | .commit now fid up =>
    match commitOp R now fid up s with
    | .ok (s1, _) => s1
    | .error _ => s
  | .reportMissing now fid nid =>
    match reportMissingOp now fid nid s with
    | .ok (s1, _) => s1
    | .error _ => s
  | .heal now => healOp R now s
  | .deleteFile fid =>
    match deleteFileOp fid s with
    | .ok s1 => s1
    | .error _ => s

/-- The empty registry (the system is allowed to start empty). -/
def emptyStore : Store := ⟨[], []⟩

/-- Run a sequence of mutations from the empty registry; its results are the
reachable states. -/
def runOps (R : Nat) (ops : List Op) : Store :=
  ops.foldl (applyOp R) emptyStore

/-! ## Gateway upload path (`src/ui_gateway/main.go`) -/

/-- The hard-coded `requiredWrites := 2` of `handleUpload`, equal to the
replication factor the naming service is started with (`NewStore("metadata", 2)`). -/
def gatewayRequiredWrites : Nat := 2

/-- Outcome of the gateway upload after the per-replica byte pushes: either a
502 without any commit call, or a commit call with the listed node ids. -/
inductive UploadResult where
  | badGateway
  | committed (uploaded : List String)
deriving DecidableEq

/-- `handleUpload` after a successful allocate: push bytes to every returned
replica (the network outcome per replica is the oracle `uploadOk`), collect
the node ids that succeeded, 502 without commit when fewer than
`requiredWrites`, otherwise commit exactly that list. -/
def gatewayUpload (replicas : List (String × String))
    (uploadOk : String → String → Bool) : UploadResult :=
  let uploadedIDs := (replicas.filter (fun p => uploadOk p.1 p.2)).map (fun p => p.1)
  if uploadedIDs.length < gatewayRequiredWrites then .badGateway
  else .committed uploadedIDs

/-! ## Invariant predicates and specification accessors -/

/-- Number of READY entries of a replica list. -/
def readyCount (reps : List ReplicaInfo) : Nat :=
  (reps.filter (fun r => r.status == ReplicaStatus.ready)).length

/-- The replica entries one healing append adds to a file (specification
accessor; `healFile` appends exactly these in its append branch). -/
def healNews (R now : Nat) (nodes : List NodeInfo) (m : FileMetadata) :
    List ReplicaInfo :=
  ((List.insertionSort (notLtAfter lessLoad) (healCandidates now nodes m)).take
    (R - healthyCount now nodes m)).map
      (fun n => ReplicaInfo.mk n.nodeId n.url .missing now)

/-- Invariant 2 of the spec for one file: AVAILABLE implies at least `R`
READY replicas. -/
def FileOk (R : Nat) (m : FileMetadata) : Prop :=
  m.state = .available → R ≤ readyCount m.replicas

/-- Invariant 2 for every file of the registry. -/
def StoreOk (R : Nat) (s : Store) : Prop := ∀ m ∈ s.files, FileOk R m

/-- The node data-model invariant of the spec: nonnegative usage and
positive capacity. -/
def NodeOk (n : NodeInfo) : Prop := 0 ≤ n.usedBytes ∧ 0 < n.capacityBytes

/-- Node invariants for the whole registry, including key uniqueness. -/
def NodesOk (s : Store) : Prop :=
  (∀ n ∈ s.nodes, NodeOk n) ∧ (s.nodes.map (fun n => n.nodeId)).Nodup

/-- The part of the node invariants no mutation can break, whatever the
heartbeat payloads: positive capacity and key uniqueness. -/
def NodesBase (s : Store) : Prop :=
  (∀ n ∈ s.nodes, 0 < n.capacityBytes) ∧
  (s.nodes.map (fun n => n.nodeId)).Nodup

/-- A mutation whose heartbeat payload (if any) is nonnegative. -/
def opNonneg : Op → Prop
  | .heartbeat _ _ u => 0 ≤ u
  | _ => True

instance : DecidablePred opNonneg := fun op =>
  match op with
  | .heartbeat _ _ u => inferInstanceAs (Decidable (0 ≤ u))
  | .registerNode _ _ _ _ _ _ => isTrue trivial
  | .allocate _ _ _ _ _ _ => isTrue trivial
  | .commit _ _ _ => isTrue trivial
  | .reportMissing _ _ _ => isTrue trivial
  | .heal _ => isTrue trivial
  | .deleteFile _ => isTrue trivial

/-! ## Concrete data for witnesses and counterexamples -/

/-- A two-node happy-path history: both nodes register, a file is allocated
on them and fully committed. -/
def wOpsAvail : List Op :=
  [ .registerNode 0 "a" "ua" 100 "" []
  , .registerNode 0 "b" "ub" 100 "" []
  , .allocate 1 "f" "x" 10 "sha256:ab" ""
  , .commit 2 "f" ["a", "b"] ]

/-- The file record `wOpsAvail` produces. -/
def wMetaAvail : FileMetadata :=
  { fileId := "f", filename := "x", size := 10, checksum := "sha256:ab",
    contentType := "", version := 1,
    replicas := [⟨"a", "ua", .ready, 2⟩, ⟨"b", "ub", .ready, 2⟩],
    state := .available, createdAt := 1, updatedAt := 2 }

/-- `wOpsAvail` followed by a heartbeat carrying a nonnegative usage. -/
def wOpsHb : List Op := wOpsAvail ++ [.heartbeat 3 "a" 7]

/-- `wOpsAvail` followed by a heartbeat carrying a negative usage. -/
def wOpsNeg : List Op := wOpsAvail ++ [.heartbeat 3 "a" (-5)]

/-- A file with two replicas in non-READY prior states, for the commit
witness. -/
def wFilePrior : FileMetadata :=
  { fileId := "f", filename := "x", size := 10, checksum := "sha256:ab",
    contentType := "", version := 1,
    replicas := [⟨"a", "ua", .missing, 0⟩, ⟨"b", "ub", .stale, 0⟩],
    state := .allocated, createdAt := 0, updatedAt := 0 }

/-- Registry holding just `wFilePrior`. -/
def wStorePrior : Store := ⟨[wFilePrior], []⟩

/-- A PARTIAL file whose `a` replica is READY and whose `b` replica is
STALE, for the report-missing witness. -/
def wFilePart : FileMetadata :=
  { fileId := "f", filename := "x", size := 10, checksum := "sha256:ab",
    contentType := "", version := 1,
    replicas := [⟨"a", "ua", .ready, 1⟩, ⟨"b", "ub", .stale, 0⟩],
    state := .partialState, createdAt := 0, updatedAt := 1 }

/-- Registry holding just `wFilePart`. -/
def wStorePart : Store := ⟨[wFilePart], []⟩

/-- `wFilePart` after `report-missing(b)` at time 9. -/
def wFilePartAfter : FileMetadata :=
  { fileId := "f", filename := "x", size := 10, checksum := "sha256:ab",
    contentType := "", version := 1,
    replicas := [⟨"a", "ua", .ready, 1⟩, ⟨"b", "ub", .missing, 0⟩],
    state := .partialState, createdAt := 0, updatedAt := 9 }

/-- Registry holding just `wFilePartAfter`. -/
def wStorePartAfter : Store := ⟨[wFilePartAfter], []⟩

/-- Three registered nodes with distinct load factors. -/
def wNodeA : NodeInfo := ⟨"a", "ua", 100, 50, .healthy, 0, "", [], 0⟩

def wNodeB : NodeInfo := ⟨"b", "ub", 100, 0, .healthy, 0, "", [], 0⟩

def wNodeC : NodeInfo := ⟨"c", "uc", 100, 10, .healthy, 0, "", [], 0⟩

/-- Registry with the three nodes and no files, for the allocate witnesses. -/
def wStoreNodes : Store := ⟨[], [wNodeA, wNodeB, wNodeC]⟩

/-- An empty, equally loaded node that has been chosen before
(`lastChosen = 3`), for the re-registration tie-break witness. -/
def wNodeD : NodeInfo := ⟨"d", "ud", 100, 0, .healthy, 0, "", [], 3⟩

/-- The file record the witness allocate over `wStoreNodes` creates. -/
def wAllocMeta : FileMetadata :=
  { fileId := "g", filename := "x", size := 10, checksum := "sha256:ab",
    contentType := "", version := 1,
    replicas := [⟨"b", "ub", .ready, 5⟩, ⟨"c", "uc", .ready, 5⟩],
    state := .allocated, createdAt := 5, updatedAt := 5 }

/-- The registry after the witness allocate over `wStoreNodes`. -/
def wAllocStore : Store :=
  ⟨[wAllocMeta],
   [wNodeA,
    ⟨"b", "ub", 100, 0, .healthy, 0, "", [], 5⟩,
    ⟨"c", "uc", 100, 10, .healthy, 0, "", [], 5⟩]⟩

/-- An AVAILABLE file whose `b` replica is MISSING, hosted on `a` and `b`,
for the healing witness (node `c` is the healing candidate). -/
def wFileHeal : FileMetadata :=
  { fileId := "f", filename := "x", size := 10, checksum := "sha256:ab",
    contentType := "", version := 1,
    replicas := [⟨"a", "ua", .ready, 1⟩, ⟨"b", "ub", .missing, 1⟩],
    state := .available, createdAt := 0, updatedAt := 1 }

/-- A file whose only replica references a node id absent from the node map:
the failing input of the lookup nil-dereference. -/
def ghostFile : FileMetadata :=
  { fileId := "f", filename := "x", size := 10, checksum := "sha256:ab",
    contentType := "", version := 1,
    replicas := [⟨"ghost", "ug", .ready, 0⟩],
    state := .available, createdAt := 0, updatedAt := 0 }

/-- Registry with `ghostFile` and an empty node map. -/
def ghostStore : Store := ⟨[ghostFile], []⟩

/-- Register node `a`, then heartbeat it with a negative `usedBytes`: the
history of the C7 counterexample. -/
def wStoreReg : Store := applyOp 2 emptyStore (.registerNode 0 "a" "ua" 100 "" [])

/-!
# Theorems

First general lemmas about the comparators and the association-list maps,
then one theorem per claim (with its witness or counterexample).
-/

/-- `lfLt` computes the strict order of the (exact) load factors. -/
theorem lfLt_iff (a b : NodeInfo) : lfLt a b = true ↔ loadFactor a < loadFactor b := by
  unfold lfLt loadFactor
  by_cases ha : a.capacityBytes ≤ 0 <;> by_cases hb : b.capacityBytes ≤ 0
  · simp [ha, hb]
  · simp [ha, hb, not_top_lt]
  · simp [ha, hb, WithTop.coe_lt_top]
  · have ha1 : (0 : ℚ) < (a.capacityBytes : ℚ) := by exact_mod_cast lt_of_not_ge ha
    have hb1 : (0 : ℚ) < (b.capacityBytes : ℚ) := by exact_mod_cast lt_of_not_ge hb
    simp only [ha, hb, if_false, decide_eq_true_eq, WithTop.coe_lt_coe,
      div_lt_div_iff₀ ha1 hb1]
    constructor <;> intro h <;> exact_mod_cast h

/-- `lfEq` computes equality of the (exact) load factors. -/
theorem lfEq_iff (a b : NodeInfo) : lfEq a b = true ↔ loadFactor a = loadFactor b := by
  unfold lfEq loadFactor
  by_cases ha : a.capacityBytes ≤ 0 <;> by_cases hb : b.capacityBytes ≤ 0
  · simp [ha, hb]
  · simp [ha, hb]
  · simp [ha, hb]
  · have ha1 : (a.capacityBytes : ℚ) ≠ 0 := by
      exact_mod_cast fun h => ha (le_of_eq h)
    have hb1 : (b.capacityBytes : ℚ) ≠ 0 := by
      exact_mod_cast fun h => hb (le_of_eq h)
    simp only [ha, hb, if_false, decide_eq_true_eq, WithTop.coe_eq_coe,
      div_eq_div_iff ha1 hb1]
    constructor <;> intro h <;> exact_mod_cast h

/-- The `pickReplicas` comparator in terms of the spec-level load factor:
strictly smaller load factor, or equal load factors and strictly older
`lastChosen`. -/
theorem lessNode_iff (a b : NodeInfo) :
    lessNode a b = true ↔
      (loadFactor a < loadFactor b ∨
        (loadFactor a = loadFactor b ∧ a.lastChosen < b.lastChosen)) := by
  unfold lessNode
  by_cases h : lfEq a b = true
  · have he := (lfEq_iff a b).mp h
    simp [h, he]
  · have hne : ¬ loadFactor a = loadFactor b := fun hc => h ((lfEq_iff a b).mpr hc)
    simp [h, lfLt_iff, hne]

/-- Negation form of `lessNode_iff`. -/
theorem lessNode_eq_false_iff (a b : NodeInfo) :
    lessNode a b = false ↔
      (loadFactor b ≤ loadFactor a ∧
        (loadFactor a = loadFactor b → b.lastChosen ≤ a.lastChosen)) := by
  rw [← Bool.not_eq_true, lessNode_iff]
  push_neg
  exact Iff.rfl

/-- The comparator is asymmetric (it is a strict weak order). -/
theorem lessNode_asymm (a b : NodeInfo) :
    lessNode a b = true → lessNode b a = false := by
  intro h
  cases hba : lessNode b a
  · rfl
  · exfalso
    rcases (lessNode_iff a b).mp h with h1 | ⟨h1, h2⟩ <;>
      rcases (lessNode_iff b a).mp hba with h3 | ⟨h3, h4⟩
    · exact absurd h3 (asymm h1)
    · rw [h3] at h1
      exact lt_irrefl _ h1
    · rw [h1] at h3
      exact lt_irrefl _ h3
    · omega

/-- Totality of `notLtAfter lessNode`. -/
theorem notLtAfter_lessNode_total (a b : NodeInfo) :
    notLtAfter lessNode a b ∨ notLtAfter lessNode b a := by
  unfold notLtAfter
  cases h : lessNode b a
  · exact Or.inl rfl
  · exact Or.inr (lessNode_asymm b a h)

/-- Transitivity of `notLtAfter lessNode`. -/
theorem notLtAfter_lessNode_trans (a b c : NodeInfo)
    (hab : notLtAfter lessNode a b) (hbc : notLtAfter lessNode b c) :
    notLtAfter lessNode a c := by
  unfold notLtAfter at *
  rcases (lessNode_eq_false_iff b a).mp hab with ⟨h1, h2⟩
  rcases (lessNode_eq_false_iff c b).mp hbc with ⟨h3, h4⟩
  apply (lessNode_eq_false_iff c a).mpr
  refine ⟨le_trans h1 h3, fun he => ?_⟩
  have e1 : loadFactor a = loadFactor b := le_antisymm h1 (he ▸ h3)
  have hca : loadFactor c = loadFactor b := he.trans e1
  exact le_trans (h2 e1.symm) (h4 hca)

/-- The sorted candidate list of the placement engine is pairwise
`notLtAfter lessNode`. -/
theorem sorted_pick (l : List NodeInfo) :
    List.Sorted (notLtAfter lessNode) (List.insertionSort (notLtAfter lessNode) l) := by
  haveI : IsTotal NodeInfo (notLtAfter lessNode) := ⟨notLtAfter_lessNode_total⟩
  haveI : IsTrans NodeInfo (notLtAfter lessNode) :=
    ⟨fun a b c => notLtAfter_lessNode_trans a b c⟩
  exact List.sorted_insertionSort _ _

/-- **C4.** For every allocate of size `S` over any node map: the candidate
set is exactly the nodes whose derived status is HEALTHY and whose
`freeBytes ≥ S` (equality acceptable); with fewer than `R` candidates the
call fails with CONFLICT and creates no file; otherwise it returns `R`
candidates such that no unchosen candidate has a strictly smaller load
factor, nor an equal load factor with a strictly older `lastChosen`, and it
sets `lastChosen = now` on each selected node. -/
theorem allocate_placement_spec (R now : Nat) (size : Int) (s : Store)
    (fid filename checksum contentType : String) :
    (∀ n : NodeInfo, n ∈ s.nodes.filter (isCandidate now size) ↔
        (n ∈ s.nodes ∧ healthOf now n = .healthy ∧ size ≤ freeBytes n))
    ∧ ((s.nodes.filter (isCandidate now size)).length < R →
        pickReplicas R now size s.nodes = none ∧
        (filename ≠ "" → 0 < size → strStarts checksum "sha256:" = true →
          allocate R now fid filename size checksum contentType s
            = .error .conflict) ∧
        applyOp R s (.allocate now fid filename size checksum contentType) = s)
    ∧ (R ≤ (s.nodes.filter (isCandidate now size)).length →
        (pickReplicas R now size s.nodes).isSome = true ∧
        ∀ chosen, pickReplicas R now size s.nodes = some chosen →
          chosen.length = R ∧
          (chosen ++ pickRest R now size s.nodes).Perm
            (s.nodes.filter (isCandidate now size)) ∧
          (∀ c ∈ chosen, ∀ d ∈ pickRest R now size s.nodes,
            ¬ loadFactor d < loadFactor c ∧
            (loadFactor d = loadFactor c → c.lastChosen ≤ d.lastChosen)) ∧
          (filename ≠ "" → 0 < size → strStarts checksum "sha256:" = true →
            (allocate R now fid filename size checksum contentType s).isOk = true ∧
            ∀ s1 reps,
              allocate R now fid filename size checksum contentType s
                = .ok (s1, reps) →
              ∀ n ∈ s1.nodes,
                n.nodeId ∈ chosen.map (fun c => c.nodeId) → n.lastChosen = now)) := by
  refine ⟨?_, ?_, ?_⟩
  · intro n
    rw [List.mem_filter]
    unfold isCandidate
    simp [Bool.and_eq_true, decide_eq_true_eq]
  · intro hlt
    have hpick : pickReplicas R now size s.nodes = none := by
      unfold pickReplicas
      simp only [hlt, if_true]
    have herr : ∃ e, allocate R now fid filename size checksum contentType s
        = .error e := by
      unfold allocate
      by_cases hv : filename = "" ∨ size ≤ 0 ∨ strStarts checksum "sha256:" = false
      · exact ⟨.badRequest, by rw [if_pos hv]⟩
      · refine ⟨.conflict, ?_⟩
        rw [if_neg hv, hpick]
    obtain ⟨e, he⟩ := herr
    refine ⟨hpick, fun hf hsz hck => ?_, ?_⟩
    · unfold allocate
      rw [if_neg ?_, hpick]
      push_neg
      exact ⟨hf, hsz, by rw [hck]; simp⟩
    · simp [applyOp, he]
  · intro hge
    have hpick : pickReplicas R now size s.nodes
        = some ((List.insertionSort (notLtAfter lessNode)
            (s.nodes.filter (isCandidate now size))).take R) := by
      unfold pickReplicas
      simp only [not_lt.mpr hge, if_false]
    refine ⟨by rw [hpick]; rfl, ?_⟩
    intro chosen hch
    rw [hpick] at hch
    replace hch := (Option.some.injEq _ _).mp hch
    subst hch
    have hperm : (List.insertionSort (notLtAfter lessNode)
        (s.nodes.filter (isCandidate now size))).Perm
        (s.nodes.filter (isCandidate now size)) := List.perm_insertionSort _ _
    have hlen := hperm.length_eq
    refine ⟨?_, ?_, ?_, ?_⟩
    · rw [List.length_take]
      omega
    · have hr : pickRest R now size s.nodes
          = (List.insertionSort (notLtAfter lessNode)
              (s.nodes.filter (isCandidate now size))).drop R := rfl
      rw [hr, List.take_append_drop]
      exact hperm
    · have hsort := sorted_pick (s.nodes.filter (isCandidate now size))
      rw [← List.take_append_drop R (List.insertionSort (notLtAfter lessNode)
        (s.nodes.filter (isCandidate now size)))] at hsort
      have hcross := (List.pairwise_append.mp hsort).2.2
      intro c hc d hd
      have h1 : notLtAfter lessNode c d := hcross c hc d hd
      have h2 := (lessNode_eq_false_iff d c).mp h1
      exact ⟨not_lt.mpr h2.1, h2.2⟩
    · intro hf hsz hck
      have hvneg : ¬ (filename = "" ∨ size ≤ 0 ∨
          strStarts checksum "sha256:" = false) := by
        push_neg
        refine ⟨hf, hsz, ?_⟩
        rw [hck]
        simp
      constructor
      · unfold allocate
        rw [if_neg hvneg, hpick]
        rfl
      · intro s1 reps h1 n hn hid
        unfold allocate at h1
        rw [if_neg hvneg, hpick] at h1
        simp only [Except.ok.injEq, Prod.mk.injEq] at h1
        obtain ⟨h1a, -⟩ := h1
        subst h1a
        obtain ⟨n0, hn0, rfl⟩ := List.mem_map.mp hn
        by_cases hc0 : (((List.insertionSort (notLtAfter lessNode)
            (s.nodes.filter (isCandidate now size))).take R).map
              (fun c => c.nodeId)).contains n0.nodeId = true
        · simp only [hc0, if_true]
        · exfalso
          simp only [hc0, if_false] at hid
          exact hc0 (List.elem_iff.mpr hid)


/-- Witness for `allocate_placement_spec` at a concrete three-node registry:
two replicas are picked, the unchosen node `a` has a load factor no smaller
than the chosen ones, node `a` is a candidate, and the allocate succeeds. -/
theorem allocate_placement_spec_witness :
    ([wNodeB, wNodeC] : List NodeInfo).length = 2 ∧
    ¬ loadFactor wNodeA < loadFactor wNodeB ∧
    (wNodeA ∈ wStoreNodes.nodes ∧ healthOf 5 wNodeA = .healthy ∧
      10 ≤ freeBytes wNodeA) ∧
    (allocate 2 5 "g" "x" 10 "sha256:ab" "" wStoreNodes).isOk = true := by
  have h0 := allocate_placement_spec 2 5 10 wStoreNodes "g" "x" "sha256:ab" ""
  have h := h0.2.2 (by decide)
  have h2 := h.2 [wNodeB, wNodeC] (by decide)
  have h3 := h2.2.2.1 wNodeB (by decide) wNodeA (by decide)
  have h4 := h2.2.2.2 (by decide) (by decide) (by decide)
  exact ⟨h2.1, h3.1, (h0.1 wNodeA).mp (by decide), h4.1⟩

/-- Updating the (unique, by `find?`) matching entry of an association list:
if the update keeps the key matching, `find?` returns the updated entry. -/
theorem find?_update {α : Type} (p : α → Bool) (g : α → α)
    (hg : ∀ a, p a = true → p (g a) = true) (l : List α) :
    ∀ (m : α), l.find? p = some m →
      (l.map (fun a => if p a then g a else a)).find? p = some (g m) := by
  induction l with
  | nil =>
    intro m h
    simp at h
  | cons a l ih =>
    intro m h
    by_cases hpa : p a = true
    · rw [List.find?_cons_of_pos _ hpa] at h
      replace h := (Option.some.injEq _ _).mp h
      subst h
      simp only [List.map_cons, if_pos hpa]
      exact List.find?_cons_of_pos _ (hg a hpa)
    · rw [List.find?_cons_of_neg _ hpa] at h
      simp only [List.map_cons, if_neg hpa]
      rw [List.find?_cons_of_neg _ hpa]
      exact ih m h

/-- Indexing into a mapped list. -/
theorem get_map_eq {α β : Type} (f : α → β) (l : List α) (i : Nat)
    (hi : i < l.length) (hj : i < (l.map f).length) :
    (l.map f).get ⟨i, hj⟩ = f (l.get ⟨i, hi⟩) := by
  simp

/-- The state `commitFile` computes, written out. -/
theorem commitFile_state (R now : Nat) (U : List String) (m : FileMetadata) :
    (commitFile R now U m).state =
      (if uploadCount U m.replicas = 0 then .allocated
       else if uploadCount U m.replicas < R then .partialState
       else .available) := rfl

/-- **C1.** For every commit: an unknown file id fails with NOT_FOUND and
changes nothing; on a known file, with `k` the number of replica entries
whose node id is in the uploaded set, exactly those entries become READY
with `lastVerifiedAt = now`, entries whose node id is not in the set keep
their prior value, the resulting state is ALLOCATED / PARTIAL / AVAILABLE
according to `k = 0` / `0 < k < R` / `k ≥ R`, and that state is both stored
and returned. -/
theorem commit_state_transition (R now : Nat) (fid : String) (U : List String)
    (s : Store) (hR : 0 < R) :
    (findFile s fid = none →
      commitOp R now fid U s = .error .notFound ∧
      applyOp R s (.commit now fid U) = s)
    ∧ (∀ m, findFile s fid = some m →
        ∀ s1 st, commitOp R now fid U s = .ok (s1, st) →
          (uploadCount U m.replicas = 0 → st = .allocated) ∧
          (0 < uploadCount U m.replicas → uploadCount U m.replicas < R →
            st = .partialState) ∧
          (R ≤ uploadCount U m.replicas → st = .available) ∧
          ∀ m1, findFile s1 fid = some m1 →
            m1.state = st ∧
            m1.replicas.length = m.replicas.length ∧
            ∀ i (hi : i < m.replicas.length),
              (U.contains (m.replicas.get ⟨i, hi⟩).nodeId = true →
                ∃ hj : i < m1.replicas.length,
                  (m1.replicas.get ⟨i, hj⟩).status = .ready ∧
                  (m1.replicas.get ⟨i, hj⟩).lastVerifiedAt = now ∧
                  (m1.replicas.get ⟨i, hj⟩).nodeId = (m.replicas.get ⟨i, hi⟩).nodeId ∧
                  (m1.replicas.get ⟨i, hj⟩).url = (m.replicas.get ⟨i, hi⟩).url) ∧
              (U.contains (m.replicas.get ⟨i, hi⟩).nodeId = false →
                ∃ hj : i < m1.replicas.length,
                  m1.replicas.get ⟨i, hj⟩ = m.replicas.get ⟨i, hi⟩))
    ∧ (∀ m, findFile s fid = some m →
        (commitOp R now fid U s).isOk = true) := by
  refine ⟨?_, ?_, ?_⟩
  · intro hnone
    unfold commitOp
    rw [hnone]
    exact ⟨rfl, by simp [applyOp, commitOp, hnone]⟩
  · intro m hm s1 st hok
    unfold commitOp at hok
    rw [hm] at hok
    simp only [Except.ok.injEq, Prod.mk.injEq] at hok
    obtain ⟨hs1, hst⟩ := hok
    subst hs1
    have hstate : st = (commitFile R now U m).state := hst.symm
    refine ⟨?_, ?_, ?_, ?_⟩
    · intro h0
      rw [hstate, commitFile_state, if_pos h0]
    · intro hpos hlt
      rw [hstate, commitFile_state, if_neg (by omega), if_pos hlt]
    · intro hge
      rw [hstate, commitFile_state, if_neg (by omega), if_neg (by omega)]
    · intro m1 hm1
      have hm0 : s.files.find? (fun f => f.fileId == fid) = some m := hm
      have hkey0 := List.find?_some hm0
      have hfind := find?_update (fun f => f.fileId == fid)
        (fun _ => commitFile R now U m) (fun _ _ => hkey0) s.files m hm0
      have hm1x : (s.files.map (fun a => if a.fileId == fid
          then commitFile R now U m else a)).find? (fun f => f.fileId == fid)
          = some m1 := hm1
      rw [hfind] at hm1x
      replace hm1x := (Option.some.injEq _ _).mp hm1x
      subst hm1x
      refine ⟨hstate.symm, by simp [commitFile, commitReplicas], ?_⟩
      intro i hi
      have hj : i < (commitFile R now U m).replicas.length := by
        simpa [commitFile, commitReplicas] using hi
      have hget : (commitFile R now U m).replicas.get ⟨i, hj⟩
          = (fun r => if U.contains r.nodeId
              then { r with status := ReplicaStatus.ready, lastVerifiedAt := now }
              else r) (m.replicas.get ⟨i, hi⟩) :=
        get_map_eq _ m.replicas i hi hj
      constructor
      · intro hcon
        refine ⟨hj, ?_⟩
        rw [hget]
        have hmem : (m.replicas.get ⟨i, hi⟩).nodeId ∈ U := List.elem_iff.mp hcon
        simp only [List.get_eq_getElem] at hmem
        simp [hmem]
      · intro hcon
        refine ⟨hj, ?_⟩
        rw [hget]
        have hmem : ¬ (m.replicas.get ⟨i, hi⟩).nodeId ∈ U := by
          simpa using hcon
        simp only [List.get_eq_getElem] at hmem
        simp [hmem]
  · intro m hm
    unfold commitOp
    rw [hm]
    rfl

/-- Witness for `commit_state_transition`: committing `uploaded = [a]` on a
two-replica file with prior statuses MISSING and STALE yields PARTIAL, makes
replica `a` READY at the commit time, and leaves replica `b` untouched. -/
theorem commit_state_transition_witness :
    (commitOp 2 7 "f" ["a"] wStorePrior).isOk = true ∧
    ∀ s1 st, commitOp 2 7 "f" ["a"] wStorePrior = .ok (s1, st) →
      st = .partialState := by
  have h0 := commit_state_transition 2 7 "f" ["a"] wStorePrior (by decide)
  refine ⟨h0.2.2 wFilePrior (by decide), ?_⟩
  intro s1 st hok
  have h1 := h0.2.1 wFilePrior (by decide) s1 st hok
  exact h1.2.1 (by decide) (by decide)


/-- `reportMissingFile` updates the replica list pointwise. -/
theorem reportMissingFile_replicas (now : Nat) (nid : String) (m : FileMetadata) :
    (reportMissingFile now nid m).replicas
      = m.replicas.map (fun r => if r.nodeId == nid
          then { r with status := ReplicaStatus.missing } else r) := rfl

/-- The state `reportMissingFile` computes, written out. -/
theorem reportMissingFile_state (now : Nat) (nid : String) (m : FileMetadata) :
    (reportMissingFile now nid m).state
      = (if nonReadyCount ((reportMissingFile now nid m).replicas) > 0
            ∧ m.state = .available
         then .degraded else m.state) := rfl

/-- **C6.** For every report-missing on a known file: every replica entry
with the reported node id becomes MISSING (other fields kept); entries with
a different node id are untouched; then, with `c` the count of non-READY
replicas after the marking, the state becomes DEGRADED exactly when `c > 0`
and the state was AVAILABLE, and is unchanged in every other case (a PARTIAL
file stays PARTIAL, a DEGRADED file stays DEGRADED); the call is accepted
and returns the resulting state. -/
theorem report_missing_spec (now : Nat) (fid nid : String) (s : Store) :
    ∀ m, findFile s fid = some m →
      (reportMissingOp now fid nid s).isOk = true ∧
      ∀ s1 st, reportMissingOp now fid nid s = .ok (s1, st) →
        ∀ m1, findFile s1 fid = some m1 →
          m1.replicas.length = m.replicas.length ∧
          (∀ i (hi : i < m.replicas.length),
            ((m.replicas.get ⟨i, hi⟩).nodeId = nid →
              ∃ hj : i < m1.replicas.length,
                (m1.replicas.get ⟨i, hj⟩).status = .missing ∧
                (m1.replicas.get ⟨i, hj⟩).nodeId = (m.replicas.get ⟨i, hi⟩).nodeId ∧
                (m1.replicas.get ⟨i, hj⟩).url = (m.replicas.get ⟨i, hi⟩).url ∧
                (m1.replicas.get ⟨i, hj⟩).lastVerifiedAt
                  = (m.replicas.get ⟨i, hi⟩).lastVerifiedAt) ∧
            ((m.replicas.get ⟨i, hi⟩).nodeId ≠ nid →
              ∃ hj : i < m1.replicas.length,
                m1.replicas.get ⟨i, hj⟩ = m.replicas.get ⟨i, hi⟩)) ∧
          (0 < nonReadyCount m1.replicas → m.state = .available →
            m1.state = .degraded) ∧
          (nonReadyCount m1.replicas = 0 → m1.state = m.state) ∧
          (m.state ≠ .available → m1.state = m.state) ∧
          st = m1.state := by
  intro m hm
  have hm0 : s.files.find? (fun f => f.fileId == fid) = some m := hm
  have hkey0 := List.find?_some hm0
  constructor
  · unfold reportMissingOp
    rw [hm]
    rfl
  · intro s1 st hok
    unfold reportMissingOp at hok
    rw [hm] at hok
    simp only [Except.ok.injEq, Prod.mk.injEq] at hok
    obtain ⟨hs1, hst⟩ := hok
    subst hs1
    intro m1 hm1
    have hfind := find?_update (fun f => f.fileId == fid)
      (fun _ => reportMissingFile now nid m) (fun _ _ => hkey0) s.files m hm0
    have hm1x : (s.files.map (fun a => if a.fileId == fid
        then reportMissingFile now nid m else a)).find? (fun f => f.fileId == fid)
        = some m1 := hm1
    rw [hfind] at hm1x
    replace hm1x := (Option.some.injEq _ _).mp hm1x
    have hm2 : reportMissingFile now nid m = m1 := hm1x
    subst hm2
    refine ⟨by rw [reportMissingFile_replicas]; simp, ?_, ?_, ?_, ?_, hst.symm⟩
    · intro i hi
      have hj : i < (reportMissingFile now nid m).replicas.length := by
        rw [reportMissingFile_replicas]
        simpa using hi
      have hget : (reportMissingFile now nid m).replicas.get ⟨i, hj⟩
          = (fun r => if r.nodeId == nid
              then { r with status := ReplicaStatus.missing } else r)
            (m.replicas.get ⟨i, hi⟩) :=
        get_map_eq _ m.replicas i hi hj
      constructor
      · intro hid
        refine ⟨hj, ?_⟩
        rw [hget]
        simp only [List.get_eq_getElem] at hid
        simp [hid]
      · intro hid
        refine ⟨hj, ?_⟩
        rw [hget]
        simp only [List.get_eq_getElem] at hid
        simp [hid]
    · intro hc hav
      rw [reportMissingFile_state, if_pos ⟨hc, hav⟩]
    · intro hc
      rw [reportMissingFile_state, if_neg ?_]
      rintro ⟨h1, -⟩
      omega
    · intro hne
      rw [reportMissingFile_state, if_neg ?_]
      rintro ⟨-, h2⟩
      exact hne h2

/-- Witness for `report_missing_spec`: reporting node `b` missing on a
PARTIAL file marks the `b` replica MISSING and leaves the state PARTIAL. -/
theorem report_missing_spec_witness :
    (reportMissingOp 9 "f" "b" wStorePart).isOk = true ∧
    wFilePartAfter.state = .partialState := by
  have h := report_missing_spec 9 "f" "b" wStorePart wFilePart (by decide)
  refine ⟨h.1, ?_⟩
  have h2 := h.2 wStorePartAfter .partialState (by decide) wFilePartAfter (by decide)
  have h3 := h2.2.2.2.2.1 (by decide)
  rw [h3]
  rfl

/-- **C8.** For every gateway upload after allocate: if fewer than
`requiredWrites = 2` (the configured replication factor of the naming
service) storage nodes successfully receive the bytes, the gateway answers
502 Bad Gateway and never calls commit; if at least that many succeed, it
calls commit with exactly the node ids that succeeded. -/
theorem gateway_upload_quorum (replicas : List (String × String))
    (uploadOk : String → String → Bool) :
    ((replicas.filter (fun p => uploadOk p.1 p.2)).length < gatewayRequiredWrites →
      gatewayUpload replicas uploadOk = .badGateway)
    ∧ (gatewayRequiredWrites ≤ (replicas.filter (fun p => uploadOk p.1 p.2)).length →
        gatewayUpload replicas uploadOk
          = .committed ((replicas.filter (fun p => uploadOk p.1 p.2)).map
              (fun p => p.1)) ∧
        ∀ nid, nid ∈ (replicas.filter (fun p => uploadOk p.1 p.2)).map (fun p => p.1)
          ↔ ∃ url, (nid, url) ∈ replicas ∧ uploadOk nid url = true) := by
  constructor
  · intro hlt
    unfold gatewayUpload
    rw [if_pos (by simpa using hlt)]
  · intro hge
    refine ⟨?_, ?_⟩
    · unfold gatewayUpload
      rw [if_neg (by simp; omega)]
    · intro nid
      constructor
      · intro hmem
        obtain ⟨p, hp, hfst⟩ := List.mem_map.mp hmem
        obtain ⟨hpr, hok⟩ := List.mem_filter.mp hp
        subst hfst
        exact ⟨p.2, hpr, hok⟩
      · rintro ⟨url, hpr, hok⟩
        exact List.mem_map.mpr ⟨(nid, url), List.mem_filter.mpr ⟨hpr, hok⟩, rfl⟩

/-- Witness for `gateway_upload_quorum`: three allocated replicas, uploads
to `a` and `b` succeed and the upload to `c` fails, so the gateway commits
exactly `[a, b]`. -/
theorem gateway_upload_quorum_witness :
    gatewayUpload [("a", "ua"), ("b", "ub"), ("c", "uc")]
        (fun nid _ => !(nid == "c")) = .committed ["a", "b"] ∧
    ("a" ∈ (([("a", "ua"), ("b", "ub"), ("c", "uc")] :
        List (String × String)).filter
          (fun p => (fun nid _ => !(nid == "c")) p.1 p.2)).map (fun p => p.1)) := by
  have h := (gateway_upload_quorum [("a", "ua"), ("b", "ub"), ("c", "uc")]
    (fun nid _ => !(nid == "c"))).2 (by decide)
  refine ⟨?_, ?_⟩
  · rw [h.1]
    decide
  · exact (h.2 "a").mpr ⟨"ua", by decide, by decide⟩


/-- `find?` over a map-replace of the matching entries returns the
replacement, provided some entry matches. -/
theorem find?_map_replace (nodes : List NodeInfo) (n : NodeInfo) :
    nodes.any (fun m => m.nodeId == n.nodeId) = true →
    (nodes.map (fun m => if m.nodeId == n.nodeId then n else m)).find?
      (fun m => m.nodeId == n.nodeId) = some n := by
  induction nodes with
  | nil =>
    intro h
    simp at h
  | cons a l ih =>
    intro h
    by_cases hpa : (a.nodeId == n.nodeId) = true
    · simp only [List.map_cons, if_pos hpa]
      exact List.find?_cons_of_pos _ (by simp)
    · simp only [List.map_cons, if_neg hpa]
      refine Eq.trans (List.find?_cons_of_neg _ hpa) ?_
      apply ih
      simp only [List.any_cons, hpa, Bool.false_or] at h
      exact h

/-- After `upsertNode`, looking the node id up returns the new record. -/
theorem find?_upsertNode (nodes : List NodeInfo) (n : NodeInfo) :
    (upsertNode nodes n).find? (fun m => m.nodeId == n.nodeId) = some n := by
  unfold upsertNode
  by_cases h : nodes.any (fun m => m.nodeId == n.nodeId) = true
  · rw [if_pos h]
    exact find?_map_replace nodes n h
  · rw [if_neg h]
    rw [List.find?_append]
    have hnone : nodes.find? (fun m => m.nodeId == n.nodeId) = none := by
      rw [List.find?_eq_none]
      intro x hx hpx
      exact h (List.any_eq_true.mpr ⟨x, hx, hpx⟩)
    rw [hnone]
    simp

/-- **C10.** Re-registering an existing node id replaces the whole record:
`usedBytes` becomes 0, `lastSeenAt` becomes now, and `lastChosen` is reset
to the zero time, so the node is never beaten in a placement tie-break among
equally loaded nodes, and strictly wins one against any equally loaded node
that has ever been chosen. -/
theorem reregister_resets_spec (now : Nat) (nid url : String) (cap : Int)
    (zone : String) (tags : List String) (s : Store)
    (hn : nid ≠ "") (hu : url ≠ "") (hc : 0 < cap) :
    (registerNode now nid url cap zone tags s).isOk = true ∧
    ∀ s1, registerNode now nid url cap zone tags s = .ok s1 →
      findNode s1 nid
        = some ⟨nid, url, cap, 0, .healthy, now, zone, tags, 0⟩ ∧
      (∀ m : NodeInfo, m ∈ s1.nodes →
        (⟨nid, url, cap, 0, .healthy, now, zone, tags, 0⟩ : NodeInfo).lastChosen
          ≤ m.lastChosen) ∧
      (∀ m : NodeInfo,
        loadFactor m = loadFactor (⟨nid, url, cap, 0, .healthy, now, zone, tags, 0⟩ : NodeInfo) →
        lessNode m ⟨nid, url, cap, 0, .healthy, now, zone, tags, 0⟩ = false ∧
        (0 < m.lastChosen →
          lessNode ⟨nid, url, cap, 0, .healthy, now, zone, tags, 0⟩ m = true)) := by
  have hv : ¬ (nid = "" ∨ url = "" ∨ cap ≤ 0) := by
    push_neg
    exact ⟨hn, hu, hc⟩
  constructor
  · unfold registerNode
    rw [if_neg hv]
    rfl
  · intro s1 hok
    unfold registerNode at hok
    rw [if_neg hv] at hok
    simp only [Except.ok.injEq] at hok
    subst hok
    refine ⟨?_, ?_, ?_⟩
    · exact find?_upsertNode s.nodes ⟨nid, url, cap, 0, .healthy, now, zone, tags, 0⟩
    · intro m _
      exact Nat.zero_le _
    · intro m hlf
      constructor
      · apply (lessNode_eq_false_iff _ _).mpr
        exact ⟨le_of_eq hlf.symm, fun _ => Nat.zero_le _⟩
      · intro hpos
        apply (lessNode_iff _ _).mpr
        exact Or.inr ⟨hlf.symm, hpos⟩

/-- Witness for `reregister_resets_spec`: re-registering node `a` over the
three-node registry yields a record with `usedBytes = 0` and the zero
`lastChosen`, which strictly beats an equally loaded node with
`lastChosen = 3`. -/
theorem reregister_resets_spec_witness :
    (registerNode 9 "a" "ua2" 200 "z" [] wStoreNodes).isOk = true ∧
    findNode ⟨wStoreNodes.files,
        [⟨"a", "ua2", 200, 0, .healthy, 9, "z", [], 0⟩, wNodeB, wNodeC]⟩ "a"
      = some ⟨"a", "ua2", 200, 0, .healthy, 9, "z", [], 0⟩ ∧
    lessNode wNodeD ⟨"a", "ua2", 200, 0, .healthy, 9, "z", [], 0⟩ = false ∧
    lessNode (⟨"a", "ua2", 200, 0, .healthy, 9, "z", [], 0⟩ : NodeInfo) wNodeD
      = true := by
  have h := reregister_resets_spec 9 "a" "ua2" 200 "z" [] wStoreNodes
    (by decide) (by decide) (by decide)
  have h2 := h.2 ⟨wStoreNodes.files,
    [⟨"a", "ua2", 200, 0, .healthy, 9, "z", [], 0⟩, wNodeB, wNodeC]⟩ (by decide)
  have hlf : loadFactor wNodeD
      = loadFactor (⟨"a", "ua2", 200, 0, .healthy, 9, "z", [], 0⟩ : NodeInfo) := by
    norm_num [loadFactor, wNodeD]
  have h3 := h2.2.2 wNodeD hlf
  exact ⟨h.1, h2.1, h3.1, h3.2 (by decide)⟩

/-- **C9.** A successful allocate only stamps `lastChosen` on the selected
nodes: a node whose id is not among the returned replicas is completely
unchanged (in particular its `lastChosen` and `freeBytes`, so no capacity is
reserved and repeated allocates between heartbeats see the same free space);
a selected node changes exactly its `lastChosen`, to the allocation time;
and with a fresh file id the file map is the old one with the new record
appended, every pre-existing record untouched. -/
theorem allocate_frame_spec (R now : Nat) (fid filename : String) (size : Int)
    (checksum contentType : String) (s s1 : Store) (reps : List ReplicaInfo)
    (h : allocate R now fid filename size checksum contentType s = .ok (s1, reps)) :
    s1.nodes.length = s.nodes.length ∧
    (∀ i (hi : i < s.nodes.length), ∃ hj : i < s1.nodes.length,
      freeBytes (s1.nodes.get ⟨i, hj⟩) = freeBytes (s.nodes.get ⟨i, hi⟩) ∧
      ((s.nodes.get ⟨i, hi⟩).nodeId ∉ reps.map (fun r => r.nodeId) →
        s1.nodes.get ⟨i, hj⟩ = s.nodes.get ⟨i, hi⟩) ∧
      ((s.nodes.get ⟨i, hi⟩).nodeId ∈ reps.map (fun r => r.nodeId) →
        s1.nodes.get ⟨i, hj⟩ = { s.nodes.get ⟨i, hi⟩ with lastChosen := now })) ∧
    ((∀ f ∈ s.files, f.fileId ≠ fid) →
      s1.files = s.files ++
        [{ fileId := fid, filename := filename, size := size,
           checksum := checksum, contentType := contentType, version := 1,
           replicas := reps, state := .allocated,
           createdAt := now, updatedAt := now }]) := by
  unfold allocate at h
  by_cases hv : (filename = "" ∨ size ≤ 0 ∨ strStarts checksum "sha256:" = false)
  · rw [if_pos hv] at h
    exact absurd h (by simp)
  · rw [if_neg hv] at h
    cases hp : pickReplicas R now size s.nodes with
    | none =>
      rw [hp] at h
      exact absurd h (by simp)
    | some chosen =>
      rw [hp] at h
      simp only [Except.ok.injEq, Prod.mk.injEq] at h
      obtain ⟨h1, h2⟩ := h
      subst h1
      have hids : reps.map (fun r => r.nodeId)
          = chosen.map (fun c => c.nodeId) := by
        rw [← h2, List.map_map]
        rfl
      refine ⟨by simp, ?_, ?_⟩
      · intro i hi
        have hj : i < (s.nodes.map (fun n =>
            if (chosen.map (fun c => c.nodeId)).contains n.nodeId
            then { n with lastChosen := now } else n)).length := by
          simpa using hi
        refine ⟨hj, ?_⟩
        have hget := get_map_eq (fun n =>
            if (chosen.map (fun c => c.nodeId)).contains n.nodeId
            then { n with lastChosen := now } else n) s.nodes i hi hj
        by_cases hcn : ((chosen.map (fun c => c.nodeId)).contains
            (s.nodes.get ⟨i, hi⟩).nodeId) = true
        · rw [hget, if_pos hcn]
          refine ⟨rfl, ?_, fun _ => rfl⟩
          intro hns
          exfalso
          apply hns
          rw [hids]
          exact List.elem_iff.mp hcn
        · rw [hget, if_neg hcn]
          refine ⟨rfl, fun _ => rfl, ?_⟩
          intro hsel
          exfalso
          rw [hids] at hsel
          exact hcn (List.elem_iff.mpr hsel)
      · intro hfresh
        rw [← h2]
        change upsertFile s.files _ = _
        unfold upsertFile
        rw [if_neg ?_]
        intro hany
        obtain ⟨f, hf, hpf⟩ := List.any_eq_true.mp hany
        exact hfresh f hf (by simpa using hpf)

/-- Witness for `allocate_frame_spec`: in the concrete allocate over the
three-node registry, the unselected node `a` is completely unchanged while
the selected node `b` changes exactly its `lastChosen`, and exactly one
file record is appended. -/
theorem allocate_frame_spec_witness :
    wAllocStore.nodes.length = wStoreNodes.nodes.length ∧
    wAllocStore.files = wStoreNodes.files ++ [wAllocMeta] ∧
    wAllocStore.nodes.get ⟨0, by decide⟩ = wStoreNodes.nodes.get ⟨0, by decide⟩ ∧
    wAllocStore.nodes.get ⟨1, by decide⟩
      = { wStoreNodes.nodes.get ⟨1, by decide⟩ with lastChosen := 5 } := by
  have h := allocate_frame_spec 2 5 "g" "x" 10 "sha256:ab" ""
    wStoreNodes wAllocStore wAllocMeta.replicas (by decide)
  obtain ⟨hj0, hfree0, hns0, hsel0⟩ := h.2.1 0 (by decide)
  obtain ⟨hj1, hfree1, hns1, hsel1⟩ := h.2.1 1 (by decide)
  refine ⟨h.1, h.2.2 ?_, hns0 (by decide), hsel1 (by decide)⟩
  intro f hf
  simp [wStoreNodes] at hf

/-- Healing skips DELETED and ALLOCATED files. -/
theorem healFile_skip (R now : Nat) (nodes : List NodeInfo) (m : FileMetadata)
    (h : m.state = .deleted ∨ m.state = .allocated) :
    healFile R now nodes m = m := by
  unfold healFile
  rw [if_pos h]

/-- Healing leaves a file with enough healthy READY replicas unchanged. -/
theorem healFile_enough (R now : Nat) (nodes : List NodeInfo) (m : FileMetadata)
    (hns : ¬ (m.state = .deleted ∨ m.state = .allocated))
    (hge : R ≤ healthyCount now nodes m) :
    healFile R now nodes m = m := by
  unfold healFile
  rw [if_neg hns]
  simp only [if_neg (not_lt.mpr hge)]

/-- Healing leaves a file unchanged when there are not enough candidates. -/
theorem healFile_noCands (R now : Nat) (nodes : List NodeInfo) (m : FileMetadata)
    (hns : ¬ (m.state = .deleted ∨ m.state = .allocated))
    (hlt : healthyCount now nodes m < R)
    (hnc : (healCandidates now nodes m).length < R - healthyCount now nodes m) :
    healFile R now nodes m = m := by
  unfold healFile
  rw [if_neg hns]
  simp only [if_pos hlt, if_neg (not_le.mpr hnc)]

/-- The append branch of healing, written out with `healNews`. -/
theorem healFile_append (R now : Nat) (nodes : List NodeInfo) (m : FileMetadata)
    (hns : ¬ (m.state = .deleted ∨ m.state = .allocated))
    (hlt : healthyCount now nodes m < R)
    (hle : R - healthyCount now nodes m ≤ (healCandidates now nodes m).length) :
    healFile R now nodes m
      = { m with
          replicas := m.replicas ++ healNews R now nodes m,
          state := (if m.state = .available then .degraded else m.state),
          updatedAt := now } := by
  unfold healFile healNews
  rw [if_neg hns]
  simp only [if_pos hlt, if_pos hle]

/-- Node ids of a take-of-sorted list are distinct when the input's are. -/
theorem nodup_ids_take_sort (r : NodeInfo → NodeInfo → Prop) [DecidableRel r]
    (k : Nat) (l : List NodeInfo)
    (h : (l.map (fun n => n.nodeId)).Nodup) :
    (((List.insertionSort r l).take k).map (fun n => n.nodeId)).Nodup := by
  have hperm := List.perm_insertionSort r l
  have h2 : ((List.insertionSort r l).map (fun n => n.nodeId)).Nodup :=
    ((hperm.map (fun n => n.nodeId)).nodup_iff).mpr h
  exact List.Nodup.sublist (List.Sublist.map _ (List.take_sublist _ _)) h2

/-- Node ids of a filtered list are distinct when the input's are. -/
theorem nodup_ids_filter (p : NodeInfo → Bool) (l : List NodeInfo)
    (h : (l.map (fun n => n.nodeId)).Nodup) :
    ((l.filter p).map (fun n => n.nodeId)).Nodup :=
  List.Nodup.sublist (List.Sublist.map _ (List.filter_sublist l)) h

/-- The node ids healing appends, as ids of the taken candidates. -/
theorem healNews_ids (R now : Nat) (nodes : List NodeInfo) (m : FileMetadata) :
    (healNews R now nodes m).map (fun r => r.nodeId)
      = ((List.insertionSort (notLtAfter lessLoad)
          (healCandidates now nodes m)).take
            (R - healthyCount now nodes m)).map (fun n => n.nodeId) := by
  unfold healNews
  rw [List.map_map]
  rfl

/-- Every node id healing appends is absent from the existing replica
list (candidates exclude nodes already hosting the file). -/
theorem healNews_ids_fresh (R now : Nat) (nodes : List NodeInfo)
    (m : FileMetadata) :
    ∀ x ∈ (healNews R now nodes m).map (fun r => r.nodeId),
      x ∉ m.replicas.map (fun r => r.nodeId) := by
  intro x hx
  rw [healNews_ids] at hx
  obtain ⟨n0, hn0, rfl⟩ := List.mem_map.mp hx
  have h1 : n0 ∈ List.insertionSort (notLtAfter lessLoad)
      (healCandidates now nodes m) := List.mem_of_mem_take hn0
  have h2 : n0 ∈ healCandidates now nodes m :=
    (List.perm_insertionSort _ _).mem_iff.mp h1
  unfold healCandidates at h2
  have h3 := (List.mem_filter.mp h2).2
  simp only [Bool.and_eq_true, Bool.not_eq_true'] at h3
  intro hmem
  have h4 : List.elem n0.nodeId (m.replicas.map (fun r => r.nodeId)) = false := h3.1
  exact absurd (List.elem_iff.mpr hmem) (by rw [h4]; simp)

/-- **C3.** One healing pass over a file: DELETED and ALLOCATED files are
skipped; otherwise, with `healthy` the count of READY replicas hosted on
known HEALTHY nodes, if `healthy < R` and at least `need = R - healthy`
candidate nodes exist (HEALTHY, enough free space, not already in the
replica list) the pass appends exactly `need` entries, all MISSING with
`lastVerifiedAt = now`, and moves an AVAILABLE state to DEGRADED; in every
other case the file is unchanged.  Healing only ever appends to the replica
list, and neither healing nor placement ever produces a duplicate node id
in one file's replica list. -/
theorem heal_appends_spec (R now : Nat) (nodes : List NodeInfo)
    (m : FileMetadata) :
    ((m.state = .deleted ∨ m.state = .allocated) → healFile R now nodes m = m)
    ∧ (¬ (m.state = .deleted ∨ m.state = .allocated) →
        R ≤ healthyCount now nodes m → healFile R now nodes m = m)
    ∧ (¬ (m.state = .deleted ∨ m.state = .allocated) →
        healthyCount now nodes m < R →
        (healCandidates now nodes m).length < R - healthyCount now nodes m →
        healFile R now nodes m = m)
    ∧ (¬ (m.state = .deleted ∨ m.state = .allocated) →
        healthyCount now nodes m < R →
        R - healthyCount now nodes m ≤ (healCandidates now nodes m).length →
        ∃ news, (healFile R now nodes m).replicas = m.replicas ++ news ∧
          news.length = R - healthyCount now nodes m ∧
          (∀ r ∈ news, r.status = .missing ∧ r.lastVerifiedAt = now) ∧
          (healFile R now nodes m).state
            = (if m.state = .available then .degraded else m.state) ∧
          (healFile R now nodes m).updatedAt = now)
    ∧ (∃ t, (healFile R now nodes m).replicas = m.replicas ++ t)
    ∧ ((nodes.map (fun n => n.nodeId)).Nodup →
        (m.replicas.map (fun r => r.nodeId)).Nodup →
        ((healFile R now nodes m).replicas.map (fun r => r.nodeId)).Nodup)
    ∧ (∀ (size : Int) (chosen : List NodeInfo),
        pickReplicas R now size nodes = some chosen →
        (nodes.map (fun n => n.nodeId)).Nodup →
        (chosen.map (fun n => n.nodeId)).Nodup) := by
  refine ⟨healFile_skip R now nodes m, healFile_enough R now nodes m,
    healFile_noCands R now nodes m, ?_, ?_, ?_, ?_⟩
  · intro hns hlt hle
    refine ⟨healNews R now nodes m, ?_, ?_, ?_, ?_, ?_⟩
    · rw [healFile_append R now nodes m hns hlt hle]
    · unfold healNews
      rw [List.length_map, List.length_take]
      have hlen := (List.perm_insertionSort (notLtAfter lessLoad)
        (healCandidates now nodes m)).length_eq
      omega
    · intro r hr
      obtain ⟨n0, hn0, rfl⟩ := List.mem_map.mp hr
      exact ⟨rfl, rfl⟩
    · rw [healFile_append R now nodes m hns hlt hle]
    · rw [healFile_append R now nodes m hns hlt hle]
  · by_cases h1 : m.state = .deleted ∨ m.state = .allocated
    · exact ⟨[], by rw [healFile_skip R now nodes m h1, List.append_nil]⟩
    by_cases h2 : healthyCount now nodes m < R
    · by_cases h3 : R - healthyCount now nodes m
          ≤ (healCandidates now nodes m).length
      · exact ⟨healNews R now nodes m,
          by rw [healFile_append R now nodes m h1 h2 h3]⟩
      · exact ⟨[], by rw [healFile_noCands R now nodes m h1 h2 (not_le.mp h3),
          List.append_nil]⟩
    · exact ⟨[], by rw [healFile_enough R now nodes m h1 (not_lt.mp h2),
        List.append_nil]⟩
  · intro hn hr
    by_cases h1 : m.state = .deleted ∨ m.state = .allocated
    · rw [healFile_skip R now nodes m h1]
      exact hr
    by_cases h2 : healthyCount now nodes m < R
    · by_cases h3 : R - healthyCount now nodes m
          ≤ (healCandidates now nodes m).length
      · rw [healFile_append R now nodes m h1 h2 h3]
        show ((m.replicas ++ healNews R now nodes m).map (fun r => r.nodeId)).Nodup
        rw [List.map_append, List.nodup_append]
        refine ⟨hr, ?_, ?_⟩
        · rw [healNews_ids]
          exact nodup_ids_take_sort _ _ _ (nodup_ids_filter _ nodes hn)
        · intro a ha hcontra
          exact healNews_ids_fresh R now nodes m a hcontra ha
      · rw [healFile_noCands R now nodes m h1 h2 (not_le.mp h3)]
        exact hr
    · rw [healFile_enough R now nodes m h1 (not_lt.mp h2)]
      exact hr
  · intro size chosen hch hn
    unfold pickReplicas at hch
    have hch2 : (if (nodes.filter (isCandidate now size)).length < R
        then (none : Option (List NodeInfo))
        else some ((List.insertionSort (notLtAfter lessNode)
          (nodes.filter (isCandidate now size))).take R)) = some chosen := hch
    split at hch2
    · exact absurd hch2 (by simp)
    · replace hch2 := (Option.some.injEq _ _).mp hch2
      subst hch2
      exact nodup_ids_take_sort _ _ _ (nodup_ids_filter _ nodes hn)

/-- Witness for `heal_appends_spec`: with nodes `a, c` and file `wFileHeal`
(READY on `a`, MISSING on `b`), healing appends a MISSING replica on `c`
and degrades the state; an ALLOCATED file is skipped; the replica list
keeps distinct node ids. -/
theorem heal_appends_spec_witness :
    (healFile 2 5 [wNodeA, wNodeC] wFileHeal).state = .degraded ∧
    healFile 2 5 [] wFilePrior = wFilePrior ∧
    ((healFile 2 5 [wNodeA, wNodeC] wFileHeal).replicas.map
      (fun r => r.nodeId)).Nodup := by
  have h := heal_appends_spec 2 5 [wNodeA, wNodeC] wFileHeal
  obtain ⟨news, h1, h2, h3, h4, h5⟩ := h.2.2.2.1 (by decide) (by decide) (by decide)
  refine ⟨?_, ?_, ?_⟩
  · rw [h4]
    decide
  · exact (heal_appends_spec 2 5 [] wFilePrior).1 (Or.inr (by decide))
  · exact h.2.2.2.2.2.1 (by decide) (by decide)

/-- **C5 (code evaluated at the failing input).** A replica whose node id is
absent from the node map: `checkAndHealReplicas` treats it as non-healthy
and completes (here: no candidates, file unchanged), but `handleLookup`
dereferences the nil map entry inside `healthOf` and panics instead of
classifying the replica as non-healthy — the lookup request fails. -/
theorem lookup_nil_node_divergence :
    lookupOp 5 "f" ghostStore = .error .nilDeref ∧
    findFile ghostStore "f" = some ghostFile ∧
    replicaHealthy 5 ghostStore.nodes ⟨"ghost", "ug", .ready, 0⟩ = false ∧
    healthyCount 5 ghostStore.nodes ghostFile = 0 ∧
    healFile 2 5 ghostStore.nodes ghostFile = ghostFile := by
  decide


/-- The replica list `commitFile` produces. -/
theorem commitFile_replicas (R now : Nat) (U : List String) (m : FileMetadata) :
    (commitFile R now U m).replicas = commitReplicas now U m.replicas := rfl

/-- Marking the uploaded replicas READY yields at least `count` READY
entries. -/
theorem uploadCount_le_readyCount (now : Nat) (U : List String)
    (reps : List ReplicaInfo) :
    uploadCount U reps ≤ readyCount (commitReplicas now U reps) := by
  induction reps with
  | nil => simp [uploadCount, readyCount, commitReplicas]
  | cons r rest ih =>
    by_cases hc : r.nodeId ∈ U
    · simp [uploadCount, readyCount, commitReplicas, List.filter_cons, hc] at ih ⊢
      omega
    · by_cases hr : r.status = ReplicaStatus.ready
      · simp [uploadCount, readyCount, commitReplicas, List.filter_cons,
          hc, hr] at ih ⊢
        omega
      · simp [uploadCount, readyCount, commitReplicas, List.filter_cons,
          hc, hr] at ih ⊢
        omega

/-- There are at most `length` READY replicas. -/
theorem readyCount_le_length (reps : List ReplicaInfo) :
    readyCount reps ≤ reps.length :=
  List.length_filter_le _ _

/-- A replica list with no non-READY entry is all READY. -/
theorem readyCount_of_nonReady_zero (reps : List ReplicaInfo)
    (h : nonReadyCount reps = 0) : readyCount reps = reps.length := by
  induction reps with
  | nil => rfl
  | cons r rest ih =>
    have hr : r.status = ReplicaStatus.ready := by
      by_contra hne
      simp [nonReadyCount, List.filter_cons, hne] at h
    have hrest : nonReadyCount rest = 0 := by
      simpa [nonReadyCount, List.filter_cons, hr] using h
    have hih := ih hrest
    simp only [readyCount, List.filter_cons, hr] at hih ⊢
    simp [hih]

/-- Invariant 2 survives a commit unconditionally. -/
theorem commitFile_ok (R now : Nat) (U : List String) (m : FileMetadata) :
    FileOk R (commitFile R now U m) := by
  intro hav
  have hst : (if uploadCount U m.replicas = 0 then FileState.allocated
      else if uploadCount U m.replicas < R then FileState.partialState
      else FileState.available) = .available := by
    rw [← commitFile_state]
    exact hav
  by_cases h0 : uploadCount U m.replicas = 0
  · rw [if_pos h0] at hst
    exact absurd hst (by decide)
  · rw [if_neg h0] at hst
    by_cases h1 : uploadCount U m.replicas < R
    · rw [if_pos h1] at hst
      exact absurd hst (by decide)
    · calc R ≤ uploadCount U m.replicas := not_lt.mp h1
        _ ≤ readyCount (commitReplicas now U m.replicas) :=
          uploadCount_le_readyCount now U m.replicas
        _ = readyCount (commitFile R now U m).replicas := by
          rw [commitFile_replicas]

/-- Invariant 2 survives a report-missing, given it held before. -/
theorem reportMissingFile_ok (R now : Nat) (nid : String) (m : FileMetadata)
    (hm : FileOk R m) : FileOk R (reportMissingFile now nid m) := by
  intro hav
  have h1 : (if nonReadyCount ((reportMissingFile now nid m).replicas) > 0
      ∧ m.state = .available then FileState.degraded else m.state)
      = .available := by
    rw [← reportMissingFile_state]
    exact hav
  by_cases hc : nonReadyCount ((reportMissingFile now nid m).replicas) > 0
      ∧ m.state = .available
  · rw [if_pos hc] at h1
    exact absurd h1 (by decide)
  · rw [if_neg hc] at h1
    have hcnt : nonReadyCount ((reportMissingFile now nid m).replicas) = 0 := by
      by_contra hne
      exact hc ⟨Nat.pos_of_ne_zero hne, h1⟩
    have hall := readyCount_of_nonReady_zero _ hcnt
    have hlen : ((reportMissingFile now nid m).replicas).length
        = m.replicas.length := by
      rw [reportMissingFile_replicas]
      simp
    calc R ≤ readyCount m.replicas := hm h1
      _ ≤ m.replicas.length := readyCount_le_length m.replicas
      _ = ((reportMissingFile now nid m).replicas).length := hlen.symm
      _ = readyCount ((reportMissingFile now nid m).replicas) := hall.symm

/-- A file healing leaves AVAILABLE was untouched by the pass. -/
theorem healFile_available_eq (R now : Nat) (nodes : List NodeInfo)
    (m : FileMetadata) (h : (healFile R now nodes m).state = .available) :
    healFile R now nodes m = m := by
  by_cases h1 : m.state = .deleted ∨ m.state = .allocated
  · exact healFile_skip R now nodes m h1
  by_cases h2 : healthyCount now nodes m < R
  · by_cases h3 : R - healthyCount now nodes m
        ≤ (healCandidates now nodes m).length
    · exfalso
      rw [healFile_append R now nodes m h1 h2 h3] at h
      have h4 : (if m.state = .available then FileState.degraded else m.state)
          = .available := h
      by_cases h5 : m.state = .available
      · rw [if_pos h5] at h4
        exact absurd h4 (by decide)
      · rw [if_neg h5] at h4
        exact h5 h4
    · exact healFile_noCands R now nodes m h1 h2 (not_le.mp h3)
  · exact healFile_enough R now nodes m h1 (not_lt.mp h2)

/-- Members of a file-map upsert are old members or the new record. -/
theorem mem_upsertFile (files : List FileMetadata) (x meta : FileMetadata)
    (hx : x ∈ upsertFile files meta) : x ∈ files ∨ x = meta := by
  unfold upsertFile at hx
  by_cases hc : files.any (fun f => f.fileId == meta.fileId) = true
  · rw [if_pos hc] at hx
    obtain ⟨y, hy, hxy⟩ := List.mem_map.mp hx
    by_cases hpy : (y.fileId == meta.fileId) = true
    · rw [if_pos hpy] at hxy
      exact Or.inr hxy.symm
    · rw [if_neg hpy] at hxy
      exact Or.inl (hxy ▸ hy)
  · rw [if_neg hc] at hx
    rcases List.mem_append.mp hx with h1 | h1
    · exact Or.inl h1
    · exact Or.inr (List.mem_singleton.mp h1)

/-- Members of a node-map upsert are old members or the new record. -/
theorem mem_upsertNode (nodes : List NodeInfo) (x n : NodeInfo)
    (hx : x ∈ upsertNode nodes n) : x ∈ nodes ∨ x = n := by
  unfold upsertNode at hx
  by_cases hc : nodes.any (fun m => m.nodeId == n.nodeId) = true
  · rw [if_pos hc] at hx
    obtain ⟨y, hy, hxy⟩ := List.mem_map.mp hx
    by_cases hpy : (y.nodeId == n.nodeId) = true
    · rw [if_pos hpy] at hxy
      exact Or.inr hxy.symm
    · rw [if_neg hpy] at hxy
      exact Or.inl (hxy ▸ hy)
  · rw [if_neg hc] at hx
    rcases List.mem_append.mp hx with h1 | h1
    · exact Or.inl h1
    · exact Or.inr (List.mem_singleton.mp h1)

/-- A pointwise key-preserving rewrite of the node list preserves the key
list. -/
theorem map_keys_pointwise (nodes : List NodeInfo) (g : NodeInfo → NodeInfo)
    (hg : ∀ m ∈ nodes, (g m).nodeId = m.nodeId) :
    (nodes.map g).map (fun m => m.nodeId) = nodes.map (fun m => m.nodeId) := by
  rw [List.map_map]
  apply List.map_congr_left
  intro a ha
  exact hg a ha

/-- `upsertNode` preserves distinctness of the keys. -/
theorem upsertNode_keys (nodes : List NodeInfo) (n : NodeInfo)
    (h : (nodes.map (fun m => m.nodeId)).Nodup) :
    ((upsertNode nodes n).map (fun m => m.nodeId)).Nodup := by
  unfold upsertNode
  by_cases hc : nodes.any (fun m => m.nodeId == n.nodeId) = true
  · rw [if_pos hc]
    rw [map_keys_pointwise]
    · exact h
    · intro a _
      by_cases hpa : (a.nodeId == n.nodeId) = true
      · show (if a.nodeId == n.nodeId then n else a).nodeId = a.nodeId
        rw [if_pos hpa]
        exact (beq_iff_eq.mp hpa).symm
      · show (if a.nodeId == n.nodeId then n else a).nodeId = a.nodeId
        rw [if_neg hpa]
  · rw [if_neg hc, List.map_append, List.nodup_append]
    refine ⟨h, by simp, ?_⟩
    intro a ha hcontra
    simp only [List.map_cons, List.map_nil, List.mem_singleton] at hcontra
    subst hcontra
    obtain ⟨m0, hm0, hid⟩ := List.mem_map.mp ha
    apply hc
    exact List.any_eq_true.mpr ⟨m0, hm0, by simp [hid]⟩

/-- Inversion of a successful register. -/
theorem registerNode_inv (now : Nat) (nid url : String) (cap : Int)
    (zone : String) (tags : List String) (s s1 : Store)
    (h : registerNode now nid url cap zone tags s = .ok s1) :
    s1.files = s.files ∧
    s1.nodes = upsertNode s.nodes ⟨nid, url, cap, 0, .healthy, now, zone, tags, 0⟩ ∧
    0 < cap := by
  unfold registerNode at h
  by_cases hv : (nid = "" ∨ url = "" ∨ cap ≤ 0)
  · rw [if_pos hv] at h
    exact absurd h (by simp)
  · rw [if_neg hv] at h
    simp only [Except.ok.injEq] at h
    subst h
    push_neg at hv
    exact ⟨rfl, rfl, hv.2.2⟩

/-- Inversion of a successful heartbeat. -/
theorem heartbeat_inv (now : Nat) (nid : String) (u : Int) (s s1 : Store)
    (st : NodeStatus) (h : heartbeat now nid u s = .ok (s1, st)) :
    s1.files = s.files ∧
    ∃ n0, findNode s nid = some n0 ∧
      s1.nodes = s.nodes.map (fun m =>
        if m.nodeId == nid
        then { n0 with
               usedBytes := u, lastSeenAt := now,
               status := healthOf now
                 { n0 with usedBytes := u, lastSeenAt := now } }
        else m) := by
  unfold heartbeat at h
  cases hf : findNode s nid with
  | none =>
    rw [hf] at h
    exact absurd h (by simp)
  | some n0 =>
    rw [hf] at h
    simp only [Except.ok.injEq, Prod.mk.injEq] at h
    obtain ⟨h1, -⟩ := h
    have h2 : ({ s with nodes := s.nodes.map (fun m =>
        if m.nodeId == nid
        then { n0 with
               usedBytes := u, lastSeenAt := now,
               status := healthOf now
                 { n0 with usedBytes := u, lastSeenAt := now } }
        else m) } : Store) = s1 := h1
    subst h2
    exact ⟨rfl, n0, rfl, rfl⟩

/-- Inversion of a successful allocate (the shape needed for the global
invariants). -/
theorem allocate_inv (R now : Nat) (fid fn : String) (sz : Int) (ck ct : String)
    (s s1 : Store) (reps : List ReplicaInfo)
    (h : allocate R now fid fn sz ck ct s = .ok (s1, reps)) :
    (∃ meta : FileMetadata, meta.state = .allocated ∧
      s1.files = upsertFile s.files meta) ∧
    (∃ ids : List String, s1.nodes = s.nodes.map (fun n =>
      if ids.contains n.nodeId then { n with lastChosen := now } else n)) := by
  unfold allocate at h
  by_cases hv : (fn = "" ∨ sz ≤ 0 ∨ strStarts ck "sha256:" = false)
  · rw [if_pos hv] at h
    exact absurd h (by simp)
  · rw [if_neg hv] at h
    cases hp : pickReplicas R now sz s.nodes with
    | none =>
      rw [hp] at h
      exact absurd h (by simp)
    | some chosen =>
      rw [hp] at h
      simp only [Except.ok.injEq, Prod.mk.injEq] at h
      obtain ⟨h1, -⟩ := h
      subst h1
      exact ⟨⟨_, rfl, rfl⟩, ⟨chosen.map (fun c => c.nodeId), rfl⟩⟩

/-- Inversion of a successful commit. -/
theorem commitOp_inv (R now : Nat) (fid : String) (U : List String)
    (s s1 : Store) (st : FileState) (h : commitOp R now fid U s = .ok (s1, st)) :
    s1.nodes = s.nodes ∧
    ∃ m0, findFile s fid = some m0 ∧
      s1.files = s.files.map (fun f =>
        if f.fileId == fid then commitFile R now U m0 else f) := by
  unfold commitOp at h
  cases hf : findFile s fid with
  | none =>
    rw [hf] at h
    exact absurd h (by simp)
  | some m0 =>
    rw [hf] at h
    simp only [Except.ok.injEq, Prod.mk.injEq] at h
    obtain ⟨h1, -⟩ := h
    have h2 : ({ s with files := s.files.map (fun f =>
        if f.fileId == fid then commitFile R now U m0 else f) } : Store)
        = s1 := h1
    subst h2
    exact ⟨rfl, m0, rfl, rfl⟩

/-- Inversion of a successful report-missing. -/
theorem reportMissingOp_inv (now : Nat) (fid nid : String)
    (s s1 : Store) (st : FileState)
    (h : reportMissingOp now fid nid s = .ok (s1, st)) :
    s1.nodes = s.nodes ∧
    ∃ m0, findFile s fid = some m0 ∧
      s1.files = s.files.map (fun f =>
        if f.fileId == fid then reportMissingFile now nid m0 else f) := by
  unfold reportMissingOp at h
  cases hf : findFile s fid with
  | none =>
    rw [hf] at h
    exact absurd h (by simp)
  | some m0 =>
    rw [hf] at h
    simp only [Except.ok.injEq, Prod.mk.injEq] at h
    obtain ⟨h1, -⟩ := h
    have h2 : ({ s with files := s.files.map (fun f =>
        if f.fileId == fid then reportMissingFile now nid m0 else f) } : Store)
        = s1 := h1
    subst h2
    exact ⟨rfl, m0, rfl, rfl⟩

/-- Inversion of a successful delete. -/
theorem deleteFileOp_inv (fid : String) (s s1 : Store)
    (h : deleteFileOp fid s = .ok s1) :
    s1.nodes = s.nodes ∧
    s1.files = s.files.filter (fun f => !(f.fileId == fid)) := by
  unfold deleteFileOp at h
  cases hf : findFile s fid with
  | none =>
    rw [hf] at h
    exact absurd h (by simp)
  | some m0 =>
    rw [hf] at h
    simp only [Except.ok.injEq] at h
    subst h
    exact ⟨rfl, rfl⟩

/-- Every mutation preserves invariant 2. -/
theorem storeOk_step (R : Nat) (s : Store) (op : Op) (h : StoreOk R s) :
    StoreOk R (applyOp R s op) := by
  cases op with
  | registerNode now nid url cap zone tags =>
    simp only [applyOp]
    cases hr : registerNode now nid url cap zone tags s with
    | error e => exact h
    | ok s1 =>
      intro m hm
      have hm2 : m ∈ s1.files := hm
      rw [(registerNode_inv now nid url cap zone tags s s1 hr).1] at hm2
      exact h m hm2
  | heartbeat now nid u =>
    simp only [applyOp]
    cases hr : heartbeat now nid u s with
    | error e => exact h
    | ok p =>
      obtain ⟨s1, st⟩ := p
      intro m hm
      have hm2 : m ∈ s1.files := hm
      rw [(heartbeat_inv now nid u s s1 st hr).1] at hm2
      exact h m hm2
  | allocate now fid fn sz ck ct =>
    simp only [applyOp]
    cases hr : allocate R now fid fn sz ck ct s with
    | error e => exact h
    | ok p =>
      obtain ⟨s1, reps⟩ := p
      obtain ⟨⟨meta, hmeta, hfiles⟩, -⟩ :=
        allocate_inv R now fid fn sz ck ct s s1 reps hr
      intro m hm
      have hm2 : m ∈ s1.files := hm
      rw [hfiles] at hm2
      rcases mem_upsertFile s.files m meta hm2 with hold | hnew
      · exact h m hold
      · subst hnew
        intro hav
        rw [hmeta] at hav
        exact absurd hav (by decide)
  | commit now fid U =>
    simp only [applyOp]
    cases hr : commitOp R now fid U s with
    | error e => exact h
    | ok p =>
      obtain ⟨s1, st⟩ := p
      obtain ⟨-, m0, hm0, hfiles⟩ := commitOp_inv R now fid U s s1 st hr
      intro m hm
      have hm2 : m ∈ s1.files := hm
      rw [hfiles] at hm2
      obtain ⟨f, hf, hfm⟩ := List.mem_map.mp hm2
      by_cases hpf : (f.fileId == fid) = true
      · rw [if_pos hpf] at hfm
        subst hfm
        exact commitFile_ok R now U m0
      · rw [if_neg hpf] at hfm
        subst hfm
        exact h f hf
  | reportMissing now fid nid =>
    simp only [applyOp]
    cases hr : reportMissingOp now fid nid s with
    | error e => exact h
    | ok p =>
      obtain ⟨s1, st⟩ := p
      obtain ⟨-, m0, hm0, hfiles⟩ := reportMissingOp_inv now fid nid s s1 st hr
      intro m hm
      have hm2 : m ∈ s1.files := hm
      rw [hfiles] at hm2
      obtain ⟨f, hf, hfm⟩ := List.mem_map.mp hm2
      by_cases hpf : (f.fileId == fid) = true
      · rw [if_pos hpf] at hfm
        subst hfm
        exact reportMissingFile_ok R now nid m0
          (h m0 (List.mem_of_find?_eq_some hm0))
      · rw [if_neg hpf] at hfm
        subst hfm
        exact h f hf
  | heal now =>
    simp only [applyOp]
    intro m hm
    have hm2 : m ∈ s.files.map (healFile R now s.nodes) := hm
    obtain ⟨f, hf, hfm⟩ := List.mem_map.mp hm2
    subst hfm
    intro hav
    have heq := healFile_available_eq R now s.nodes f hav
    rw [heq] at hav ⊢
    exact h f hf hav
  | deleteFile fid =>
    simp only [applyOp]
    cases hr : deleteFileOp fid s with
    | error e => exact h
    | ok s1 =>
      intro m hm
      have hm2 : m ∈ s1.files := hm
      rw [(deleteFileOp_inv fid s s1 hr).2] at hm2
      exact h m (List.mem_of_mem_filter hm2)

/-- Invariant 2 holds in every reachable registry state. -/
theorem storeOk_runOps (R : Nat) (ops : List Op) : StoreOk R (runOps R ops) := by
  suffices h : ∀ (l : List Op) (s : Store), StoreOk R s →
      StoreOk R (l.foldl (applyOp R) s) from
    h ops emptyStore (fun m hm => absurd hm (by simp [emptyStore]))
  intro l
  induction l with
  | nil => exact fun s hs => hs
  | cons op rest ih =>
    intro s hs
    exact ih _ (storeOk_step R s op hs)

/-- **C2.** In every reachable registry state (any sequence of register,
heartbeat, allocate, commit, report-missing, heal and delete operations from
the empty maps), a file in state AVAILABLE has at least `R` replica entries
with status READY. -/
theorem available_file_has_ready_quorum (R : Nat) (ops : List Op)
    (m : FileMetadata) (hm : m ∈ (runOps R ops).files)
    (hav : m.state = .available) :
    R ≤ readyCount m.replicas :=
  storeOk_runOps R ops m hm hav

/-- Witness for `available_file_has_ready_quorum`: the happy-path history
produces an AVAILABLE file with two READY replicas. -/
theorem available_file_has_ready_quorum_witness :
    (wMetaAvail ∈ (runOps 2 wOpsAvail).files ∧ wMetaAvail.state = .available) ∧
    2 ≤ readyCount wMetaAvail.replicas :=
  ⟨⟨by decide, by decide⟩,
   available_file_has_ready_quorum 2 wOpsAvail wMetaAvail (by decide) (by decide)⟩

/-- Every mutation with a nonnegative heartbeat payload preserves the node
invariants. -/
theorem nodesOk_step (R : Nat) (s : Store) (op : Op) (hop : opNonneg op)
    (h : NodesOk s) : NodesOk (applyOp R s op) := by
  obtain ⟨hok, hnd⟩ := h
  cases op with
  | registerNode now nid url cap zone tags =>
    simp only [applyOp]
    cases hr : registerNode now nid url cap zone tags s with
    | error e => exact ⟨hok, hnd⟩
    | ok s1 =>
      obtain ⟨-, hnodes, hcap⟩ :=
        registerNode_inv now nid url cap zone tags s s1 hr
      constructor
      · intro n hn
        have hn2 : n ∈ s1.nodes := hn
        rw [hnodes] at hn2
        rcases mem_upsertNode s.nodes n _ hn2 with h1 | h1
        · exact hok n h1
        · rw [h1]
          exact ⟨le_refl 0, hcap⟩
      · show (s1.nodes.map (fun n => n.nodeId)).Nodup
        rw [hnodes]
        exact upsertNode_keys s.nodes _ hnd
  | heartbeat now nid u =>
    simp only [applyOp]
    cases hr : heartbeat now nid u s with
    | error e => exact ⟨hok, hnd⟩
    | ok p =>
      obtain ⟨s1, st⟩ := p
      obtain ⟨-, n0, hfind, hnodes⟩ := heartbeat_inv now nid u s s1 st hr
      have hn0 := hok n0 (List.mem_of_find?_eq_some hfind)
      constructor
      · intro n hn
        have hn2 : n ∈ s1.nodes := hn
        rw [hnodes] at hn2
        obtain ⟨m0, hm0, hm0n⟩ := List.mem_map.mp hn2
        by_cases hp : (m0.nodeId == nid) = true
        · rw [if_pos hp] at hm0n
          rw [← hm0n]
          exact ⟨hop, hn0.2⟩
        · rw [if_neg hp] at hm0n
          rw [← hm0n]
          exact hok m0 hm0
      · show (s1.nodes.map (fun n => n.nodeId)).Nodup
        rw [hnodes, map_keys_pointwise]
        · exact hnd
        · intro a ha
          by_cases hpa : (a.nodeId == nid) = true
          · simp only [hpa, if_true]
            have hf2 : s.nodes.find? (fun n => n.nodeId == nid) = some n0 := hfind
            have h0 := List.find?_some hf2
            have h1 : n0.nodeId = nid := beq_iff_eq.mp h0
            show n0.nodeId = a.nodeId
            rw [h1]
            exact (beq_iff_eq.mp hpa).symm
          · simp [hpa]
  | allocate now fid fn sz ck ct =>
    simp only [applyOp]
    cases hr : allocate R now fid fn sz ck ct s with
    | error e => exact ⟨hok, hnd⟩
    | ok p =>
      obtain ⟨s1, reps⟩ := p
      obtain ⟨-, ids, hnodes⟩ := allocate_inv R now fid fn sz ck ct s s1 reps hr
      constructor
      · intro n hn
        have hn2 : n ∈ s1.nodes := hn
        rw [hnodes] at hn2
        obtain ⟨m0, hm0, hm0n⟩ := List.mem_map.mp hn2
        by_cases hp : ids.contains m0.nodeId = true
        · rw [if_pos hp] at hm0n
          rw [← hm0n]
          exact hok m0 hm0
        · rw [if_neg hp] at hm0n
          rw [← hm0n]
          exact hok m0 hm0
      · show (s1.nodes.map (fun n => n.nodeId)).Nodup
        rw [hnodes, map_keys_pointwise]
        · exact hnd
        · intro a ha
          by_cases hpa : a.nodeId ∈ ids
          · simp [hpa]
          · simp [hpa]
  | commit now fid U =>
    simp only [applyOp]
    cases hr : commitOp R now fid U s with
    | error e => exact ⟨hok, hnd⟩
    | ok p =>
      obtain ⟨s1, st⟩ := p
      have hn := (commitOp_inv R now fid U s s1 st hr).1
      constructor
      · intro n hnn
        have hn2 : n ∈ s1.nodes := hnn
        rw [hn] at hn2
        exact hok n hn2
      · show (s1.nodes.map (fun n => n.nodeId)).Nodup
        rw [hn]
        exact hnd
  | reportMissing now fid nid =>
    simp only [applyOp]
    cases hr : reportMissingOp now fid nid s with
    | error e => exact ⟨hok, hnd⟩
    | ok p =>
      obtain ⟨s1, st⟩ := p
      have hn := (reportMissingOp_inv now fid nid s s1 st hr).1
      constructor
      · intro n hnn
        have hn2 : n ∈ s1.nodes := hnn
        rw [hn] at hn2
        exact hok n hn2
      · show (s1.nodes.map (fun n => n.nodeId)).Nodup
        rw [hn]
        exact hnd
  | heal now => exact ⟨hok, hnd⟩
  | deleteFile fid =>
    simp only [applyOp]
    cases hr : deleteFileOp fid s with
    | error e => exact ⟨hok, hnd⟩
    | ok s1 =>
      have hn := (deleteFileOp_inv fid s s1 hr).1
      constructor
      · intro n hnn
        have hn2 : n ∈ s1.nodes := hnn
        rw [hn] at hn2
        exact hok n hn2
      · show (s1.nodes.map (fun n => n.nodeId)).Nodup
        rw [hn]
        exact hnd

/-- The node invariants hold in every reachable state whose heartbeats all
carried nonnegative usage. -/
theorem nodesOk_runOps (R : Nat) (ops : List Op)
    (hops : ∀ op ∈ ops, opNonneg op) : NodesOk (runOps R ops) := by
  suffices h : ∀ (l : List Op) (s : Store), (∀ op ∈ l, opNonneg op) →
      NodesOk s → NodesOk (l.foldl (applyOp R) s) from
    h ops emptyStore hops
      ⟨fun n hn => absurd hn (by simp [emptyStore]), by simp [emptyStore]⟩
  intro l
  induction l with
  | nil => exact fun s _ hs => hs
  | cons op rest ih =>
    intro s hl hs
    exact ih _ (fun o ho => hl o (List.mem_cons_of_mem _ ho))
      (nodesOk_step R s op (hl op (List.mem_cons_self _ _)) hs)

/-- **C7 counterexample.** A heartbeat carrying a negative `usedBytes`
succeeds and leaves the node map violating the `0 ≤ usedBytes` data-model
invariant: the code stores the caller's value unvalidated. -/
theorem heartbeat_negative_counterexample :
    (heartbeat 1 "a" (-5) wStoreReg).isOk = true ∧
    (applyOp 2 wStoreReg (.heartbeat 1 "a" (-5))).nodes
      = [⟨"a", "ua", 100, -5, .healthy, 1, "", [], 0⟩] ∧
    ¬ (0 ≤ (-5 : Int)) := by decide

/-- Every mutation preserves positive capacity and key uniqueness,
whatever its payload. -/
theorem nodesBase_step (R : Nat) (s : Store) (op : Op) (h : NodesBase s) :
    NodesBase (applyOp R s op) := by
  obtain ⟨hok, hnd⟩ := h
  cases op with
  | registerNode now nid url cap zone tags =>
    simp only [applyOp]
    cases hr : registerNode now nid url cap zone tags s with
    | error e => exact ⟨hok, hnd⟩
    | ok s1 =>
      obtain ⟨-, hnodes, hcap⟩ :=
        registerNode_inv now nid url cap zone tags s s1 hr
      constructor
      · intro n hn
        have hn2 : n ∈ s1.nodes := hn
        rw [hnodes] at hn2
        rcases mem_upsertNode s.nodes n _ hn2 with h1 | h1
        · exact hok n h1
        · rw [h1]
          exact hcap
      · show (s1.nodes.map (fun n => n.nodeId)).Nodup
        rw [hnodes]
        exact upsertNode_keys s.nodes _ hnd
  | heartbeat now nid u =>
    simp only [applyOp]
    cases hr : heartbeat now nid u s with
    | error e => exact ⟨hok, hnd⟩
    | ok p =>
      obtain ⟨s1, st⟩ := p
      obtain ⟨-, n0, hfind, hnodes⟩ := heartbeat_inv now nid u s s1 st hr
      have hn0 := hok n0 (List.mem_of_find?_eq_some hfind)
      constructor
      · intro n hn
        have hn2 : n ∈ s1.nodes := hn
        rw [hnodes] at hn2
        obtain ⟨m0, hm0, hm0n⟩ := List.mem_map.mp hn2
        by_cases hp : (m0.nodeId == nid) = true
        · rw [if_pos hp] at hm0n
          rw [← hm0n]
          exact hn0
        · rw [if_neg hp] at hm0n
          rw [← hm0n]
          exact hok m0 hm0
      · show (s1.nodes.map (fun n => n.nodeId)).Nodup
        rw [hnodes, map_keys_pointwise]
        · exact hnd
        · intro a ha
          by_cases hpa : (a.nodeId == nid) = true
          · simp only [hpa, if_true]
            have hf2 : s.nodes.find? (fun n => n.nodeId == nid) = some n0 := hfind
            have h0 := List.find?_some hf2
            have h1 : n0.nodeId = nid := beq_iff_eq.mp h0
            show n0.nodeId = a.nodeId
            rw [h1]
            exact (beq_iff_eq.mp hpa).symm
          · simp [hpa]
  | allocate now fid fn sz ck ct =>
    simp only [applyOp]
    cases hr : allocate R now fid fn sz ck ct s with
    | error e => exact ⟨hok, hnd⟩
    | ok p =>
      obtain ⟨s1, reps⟩ := p
      obtain ⟨-, ids, hnodes⟩ := allocate_inv R now fid fn sz ck ct s s1 reps hr
      constructor
      · intro n hn
        have hn2 : n ∈ s1.nodes := hn
        rw [hnodes] at hn2
        obtain ⟨m0, hm0, hm0n⟩ := List.mem_map.mp hn2
        by_cases hp : ids.contains m0.nodeId = true
        · rw [if_pos hp] at hm0n
          rw [← hm0n]
          exact hok m0 hm0
        · rw [if_neg hp] at hm0n
          rw [← hm0n]
          exact hok m0 hm0
      · show (s1.nodes.map (fun n => n.nodeId)).Nodup
        rw [hnodes, map_keys_pointwise]
        · exact hnd
        · intro a ha
          by_cases hpa : a.nodeId ∈ ids
          · simp [hpa]
          · simp [hpa]
  | commit now fid U =>
    simp only [applyOp]
    cases hr : commitOp R now fid U s with
    | error e => exact ⟨hok, hnd⟩
    | ok p =>
      obtain ⟨s1, st⟩ := p
      have hn := (commitOp_inv R now fid U s s1 st hr).1
      constructor
      · intro n hnn
        have hn2 : n ∈ s1.nodes := hnn
        rw [hn] at hn2
        exact hok n hn2
      · show (s1.nodes.map (fun n => n.nodeId)).Nodup
        rw [hn]
        exact hnd
  | reportMissing now fid nid =>
    simp only [applyOp]
    cases hr : reportMissingOp now fid nid s with
    | error e => exact ⟨hok, hnd⟩
    | ok p =>
      obtain ⟨s1, st⟩ := p
      have hn := (reportMissingOp_inv now fid nid s s1 st hr).1
      constructor
      · intro n hnn
        have hn2 : n ∈ s1.nodes := hnn
        rw [hn] at hn2
        exact hok n hn2
      · show (s1.nodes.map (fun n => n.nodeId)).Nodup
        rw [hn]
        exact hnd
  | heal now => exact ⟨hok, hnd⟩
  | deleteFile fid =>
    simp only [applyOp]
    cases hr : deleteFileOp fid s with
    | error e => exact ⟨hok, hnd⟩
    | ok s1 =>
      have hn := (deleteFileOp_inv fid s s1 hr).1
      constructor
      · intro n hnn
        have hn2 : n ∈ s1.nodes := hnn
        rw [hn] at hn2
        exact hok n hn2
      · show (s1.nodes.map (fun n => n.nodeId)).Nodup
        rw [hn]
        exact hnd

/-- Positive capacity and key uniqueness hold in every reachable state,
with no condition on the heartbeat payloads. -/
theorem nodesBase_runOps (R : Nat) (ops : List Op) :
    NodesBase (runOps R ops) := by
  suffices h : ∀ (l : List Op) (s : Store), NodesBase s →
      NodesBase (l.foldl (applyOp R) s) from
    h ops emptyStore
      ⟨fun n hn => absurd hn (by simp [emptyStore]), by simp [emptyStore]⟩
  intro l
  induction l with
  | nil => exact fun s hs => hs
  | cons op rest ih =>
    intro s hs
    exact ih _ (nodesBase_step R s op hs)

/-- **C7 amended.** After every mutation that returns success — in every
reachable state, with no condition on the history — the node records satisfy
`capacityBytes > 0` and `nodeId` uniqueness; `0 ≤ usedBytes` additionally
holds provided every heartbeat in the history supplied a nonnegative
`usedBytes` (heartbeat stores the caller's value without validation, so a
negative payload violates exactly that one invariant). -/
theorem node_invariants_hold_spec (R : Nat) (ops : List Op) :
    (∀ n ∈ (runOps R ops).nodes, 0 < n.capacityBytes) ∧
    ((runOps R ops).nodes.map (fun n => n.nodeId)).Nodup ∧
    ((∀ op ∈ ops, opNonneg op) →
      ∀ n ∈ (runOps R ops).nodes, 0 ≤ n.usedBytes) := by
  obtain ⟨h1, h2⟩ := nodesBase_runOps R ops
  exact ⟨h1, h2, fun hops n hn => ((nodesOk_runOps R ops hops).1 n hn).1⟩

/-- Witness for `node_invariants_hold_spec`: after the happy-path history
plus a nonnegative heartbeat all three invariants hold, and after the same
history with a negative heartbeat the unconditional capacity and uniqueness
parts still hold. -/
theorem node_invariants_hold_spec_witness :
    ((⟨"a", "ua", 100, 7, .healthy, 3, "", [], 1⟩ : NodeInfo)
      ∈ (runOps 2 wOpsHb).nodes) ∧
    0 < ((⟨"a", "ua", 100, 7, .healthy, 3, "", [], 1⟩ : NodeInfo)).capacityBytes ∧
    0 ≤ ((⟨"a", "ua", 100, 7, .healthy, 3, "", [], 1⟩ : NodeInfo)).usedBytes ∧
    ((runOps 2 wOpsHb).nodes.map (fun n => n.nodeId)).Nodup ∧
    0 < ((⟨"a", "ua", 100, -5, .healthy, 3, "", [], 1⟩ : NodeInfo)).capacityBytes ∧
    ((runOps 2 wOpsNeg).nodes.map (fun n => n.nodeId)).Nodup := by
  have h := node_invariants_hold_spec 2 wOpsHb
  have h1 := node_invariants_hold_spec 2 wOpsNeg
  exact ⟨by decide, h.1 _ (by decide), h.2.2 (by decide) _ (by decide),
    h.2.1, h1.1 _ (by decide), h1.2.1⟩

end DFS
